import Mathlib

/-!
Verification development for the `newCis` API-code generator.

The definitions below are a shallow embedding of the TypeScript sources
`src/utils/apifox.ts` and `src/cli.ts` (the `Generator.generate` category
resolution).  JavaScript objects are modelled as insertion-ordered
association lists (JavaScript objects cannot hold duplicate keys, and a
field whose value is `undefined` is modelled as an absent field); JavaScript
numbers appearing as ids/weights are modelled as `Int`; JavaScript strings
are modelled as `String` with character-level helpers mirroring the ASCII
behaviour of `toLowerCase`/`trim`.
-/

set_option maxHeartbeats 4000000
set_option linter.unusedVariables false
set_option linter.unreachableTactic false
set_option linter.unusedTactic false

namespace Cis

/-! ### JavaScript string primitives -/

/-- Model of `String.prototype.toLowerCase` (ASCII range, which is all the
source ever feeds it: JSON-schema type names and HTTP methods). -/
def jsLower (s : String) : String :=
  ⟨s.data.map Char.toLower⟩

/-- Model of `String.prototype.toUpperCase` on a single character, used by
the PascalCase model. -/
def jsUpperChar (c : Char) : Char :=
  Char.toUpper c

/-- Whitespace characters removed by `String.prototype.trim` (the ASCII
subset; the source only ever trims property names). -/
def wsChar (c : Char) : Bool :=
  c = ' ' || c = '\t' || c = '\n' || c = '\r' || c = '\x0b' || c = '\x0c'

/-- Model of `String.prototype.trim`: drop leading and trailing whitespace
characters. -/
def jsTrim (s : String) : String :=
  ⟨List.rdropWhile wsChar (s.data.dropWhile wsChar)⟩

/-! ### JavaScript objects as insertion-ordered association lists -/

/-- Property read `obj[k]`: first (and, for genuine JavaScript objects,
only) binding of the key. -/
def jsGet {α : Type} (l : List (String × α)) (k : String) : Option α :=
  match l with
  | [] => none
  | (k2, v) :: rest => if k2 = k then some v else jsGet rest k

/-- Property write `obj[k] = v`: an existing key keeps its position and gets
the new value, a new key is appended at the end (JavaScript insertion
order). -/
def jsSet {α : Type} (l : List (String × α)) (k : String) (v : α) : List (String × α) :=
  match l with
  | [] => [(k, v)]
  | (k2, v2) :: rest => if k2 = k then (k2, v) :: rest else (k2, v2) :: jsSet rest k v

/-- Property delete `delete obj[k]`. -/
def jsDelete {α : Type} (l : List (String × α)) (k : String) : List (String × α) :=
  match l with
  | [] => []
  | (k2, v2) :: rest => if k2 = k then rest else (k2, v2) :: jsDelete rest k

/-- Build an object from a list of writes (models object-literal spread and
`reduce`-style object building: later entries overwrite earlier ones). -/
def objFromPairs {α : Type} (ps : List (String × α)) : List (String × α) :=
  ps.foldl (fun acc p => jsSet acc p.1 p.2) []

/-- One step of the property-name trimming loop of `processJsonSchema`:
`const propDef = props[k]; delete props[k]; props[k.trim()] = propDef`. -/
def trimKeyStep {α : Type} (st : List (String × α)) (k : String) : List (String × α) :=
  match jsGet st k with
  | none => st
  | some v => jsSet (jsDelete st k) (jsTrim k) v

/-- The `forOwn` loop over a snapshot of keys `ks`, threading the object
state. -/
def trimKeysGo {α : Type} (ks : List String) (st : List (String × α)) : List (String × α) :=
  match ks with
  | [] => st
  | k :: rest => trimKeysGo rest (trimKeyStep st k)

/-- Property-name trimming of `processJsonSchema`: lodash `forOwn` iterates
over the snapshot of keys taken when the loop starts. -/
def trimProps {α : Type} (l : List (String × α)) : List (String × α) :=
  trimKeysGo (l.map Prod.fst) l

/-! ### Misc JavaScript helpers (`lodash`) -/

/-- Model of the `OneOrMore<T> = T | T[]` configuration type. -/
def OneOrMore (α : Type) : Type := α ⊕ List α

/-- Model of lodash `castArray`. -/
def castArr {α : Type} : OneOrMore α → List α
  | Sum.inl x => [x]
  | Sum.inr l => l

/-- Model of `Math.abs` on integers. -/
def jsAbs (i : Int) : Int :=
  if i < 0 then -i else i

/-- Model of lodash `uniq`: keep the first occurrence of each element. -/
def jsUniq : List Int → List Int
  | [] => []
  | x :: xs => x :: jsUniq (xs.filter (fun y => y ≠ x))
termination_by l => l.length
decreasing_by
  have := List.length_filter_le (fun y => decide (y ≠ x)) xs
  simp only [List.length_cons]
  omega

/-! ### Value-tracking lemmas for the object operations

These record that the object operations never invent values: every value in
the result was already a value of the input (or the explicitly written one).
They justify termination of the recursive schema transforms. -/

theorem jsGet_mem {α : Type} {l : List (String × α)} {k : String} {v : α}
    (h : jsGet l k = some v) : (k, v) ∈ l := by
  induction l with
  | nil => simp [jsGet] at h
  | cons p rest ih =>
    obtain ⟨k2, v2⟩ := p
    simp only [jsGet] at h
    by_cases hk : k2 = k
    · simp [hk] at h
      simp [hk, h]
    · simp [hk] at h
      exact List.mem_cons_of_mem _ (ih h)

theorem jsDelete_subset {α : Type} {l : List (String × α)} {k : String} {p : String × α}
    (h : p ∈ jsDelete l k) : p ∈ l := by
  induction l with
  | nil => simp [jsDelete] at h
  | cons q rest ih =>
    obtain ⟨k2, v2⟩ := q
    simp only [jsDelete] at h
    by_cases hk : k2 = k
    · simp [hk] at h
      exact List.mem_cons_of_mem _ h
    · simp [hk] at h
      rcases h with h | h
      · simp [h]
      · exact List.mem_cons_of_mem _ (ih h)

theorem jsSet_snd_mem {α : Type} {l : List (String × α)} {k : String} {v : α} {p : String × α}
    (h : p ∈ jsSet l k v) : p.2 = v ∨ p ∈ l := by
  induction l with
  | nil => simp [jsSet] at h; simp [h]
  | cons q rest ih =>
    obtain ⟨k2, v2⟩ := q
    simp only [jsSet] at h
    by_cases hk : k2 = k
    · simp [hk] at h
      rcases h with h | h
      · simp [h]
      · exact Or.inr (List.mem_cons_of_mem _ h)
    · simp [hk] at h
      rcases h with h | h
      · exact Or.inr (by simp [h])
      · rcases ih h with h2 | h2
        · exact Or.inl h2
        · exact Or.inr (List.mem_cons_of_mem _ h2)

theorem objFromPairs_snd_mem {α : Type} {ps : List (String × α)} {p : String × α}
    (h : p ∈ objFromPairs ps) : p.2 ∈ ps.map Prod.snd := by
  suffices H : ∀ acc : List (String × α), p ∈ ps.foldl (fun acc q => jsSet acc q.1 q.2) acc →
      p.2 ∈ acc.map Prod.snd ∨ p.2 ∈ ps.map Prod.snd by
    rcases H [] h with h2 | h2
    · simp at h2
    · exact h2
  clear h
  induction ps with
  | nil => intro acc h2; exact Or.inl (List.mem_map_of_mem _ h2)
  | cons q rest ih =>
    intro acc h2
    simp only [List.foldl_cons] at h2
    rcases ih _ h2 with h3 | h3
    · rcases List.mem_map.1 h3 with ⟨r, hr, hrv⟩
      rcases jsSet_snd_mem hr with h4 | h4
      · exact Or.inr (by simp [← hrv, h4])
      · exact Or.inl (by rw [← hrv]; exact List.mem_map_of_mem _ h4)
    · exact Or.inr (by rw [List.map_cons]; exact List.mem_cons_of_mem _ h3)

theorem trimKeyStep_snd_mem {α : Type} {st : List (String × α)} {k : String} {p : String × α}
    (h : p ∈ trimKeyStep st k) : p.2 ∈ st.map Prod.snd := by
  unfold trimKeyStep at h
  rcases hg : jsGet st k with _ | v
  · rw [hg] at h
    exact List.mem_map_of_mem _ h
  · rw [hg] at h
    rcases jsSet_snd_mem h with h2 | h2
    · rw [h2]
      exact List.mem_map_of_mem _ (jsGet_mem hg)
    · exact List.mem_map_of_mem _ (jsDelete_subset h2)

theorem trimKeysGo_snd_mem {α : Type} {ks : List String} {st : List (String × α)} {p : String × α}
    (h : p ∈ trimKeysGo ks st) : p.2 ∈ st.map Prod.snd := by
  induction ks generalizing st with
  | nil => exact List.mem_map_of_mem _ h
  | cons k rest ih =>
    have h2 := ih h
    rcases List.mem_map.1 h2 with ⟨r, hr, hrv⟩
    rw [← hrv]
    exact trimKeyStep_snd_mem hr

theorem trimProps_snd_mem {α : Type} {l : List (String × α)} {p : String × α}
    (h : p ∈ trimProps l) : p.2 ∈ l.map Prod.snd :=
  trimKeysGo_snd_mem h

theorem sizeOf_lt_of_mem_snd {α : Type} [SizeOf α] {l : List (String × α)} {v : α}
    (h : v ∈ l.map Prod.snd) : sizeOf v < sizeOf l := by
  rcases List.mem_map.1 h with ⟨p, hp, hpv⟩
  have h1 := List.sizeOf_lt_of_mem hp
  obtain ⟨a, b⟩ := p
  simp at hpv
  subst hpv
  simp at h1
  omega

theorem dropWhile_length_le {α : Type} (p : α → Bool) (l : List α) :
    (l.dropWhile p).length ≤ l.length := by
  induction l with
  | nil => simp
  | cons c rest ih =>
    by_cases h : p c <;> simp [List.dropWhile_cons, h] <;> omega

/-! ### Idempotence of the string primitives -/

theorem charOfNat_toNat {n : Nat} (h : n.isValidChar) : (Char.ofNat n).toNat = n := by
  simp only [Char.ofNat, h, dif_pos]
  rfl

theorem charToLower_idem (c : Char) : c.toLower.toLower = c.toLower := by
  have hdef : ∀ d : Char,
      d.toLower = if d.toNat ≥ 65 ∧ d.toNat ≤ 90 then Char.ofNat (d.toNat + 32) else d :=
    fun d => rfl
  by_cases h : c.toNat ≥ 65 ∧ c.toNat ≤ 90
  · have hv : (c.toNat + 32).isValidChar := Or.inl (by omega)
    have h2 := charOfNat_toNat hv
    rw [hdef c, if_pos h, hdef (Char.ofNat (c.toNat + 32)), h2, if_neg (by omega)]
  · rw [hdef c, if_neg h, hdef c, if_neg h]

theorem jsLower_idem (s : String) : jsLower (jsLower s) = jsLower s := by
  unfold jsLower
  simp [List.map_map]
  congr 1
  exact List.map_congr_left (fun c _ => charToLower_idem c)

theorem jsTrim_idem (k : String) : jsTrim (jsTrim k) = jsTrim k := by
  unfold jsTrim
  congr 1
  have h1 : (List.rdropWhile wsChar (k.data.dropWhile wsChar)).dropWhile wsChar
      = List.rdropWhile wsChar (k.data.dropWhile wsChar) := by
    rw [List.dropWhile_eq_self_iff]
    intro hl
    have hpre : List.rdropWhile wsChar (k.data.dropWhile wsChar) <+: k.data.dropWhile wsChar :=
      List.rdropWhile_prefix _ _
    have hl2 : 0 < (k.data.dropWhile wsChar).length :=
      lt_of_lt_of_le hl hpre.length_le
    have hh := List.dropWhile_get_zero_not wsChar k.data hl2
    have hg : (List.rdropWhile wsChar (k.data.dropWhile wsChar)).get ⟨0, hl⟩
        = (k.data.dropWhile wsChar).get ⟨0, hl2⟩ := by
      simp only [List.get_eq_getElem]
      exact hpre.getElem hl
    rw [hg]
    exact hh
  rw [h1]
  exact List.rdropWhile_idempotent _ _

/-! ### Key-tracking lemmas for the trimming pass -/

theorem jsSet_mem {α : Type} {l : List (String × α)} {k : String} {v : α} {p : String × α}
    (h : p ∈ jsSet l k v) : p = (k, v) ∨ p ∈ l := by
  induction l with
  | nil => simp [jsSet] at h; simp [h]
  | cons q rest ih =>
    obtain ⟨k2, v2⟩ := q
    simp only [jsSet] at h
    by_cases hk : k2 = k
    · subst hk
      simp at h
      rcases h with h | h
      · simp [h]
      · exact Or.inr (List.mem_cons_of_mem _ h)
    · simp [hk] at h
      rcases h with h | h
      · exact Or.inr (by simp [h])
      · rcases ih h with h2 | h2
        · exact Or.inl h2
        · exact Or.inr (List.mem_cons_of_mem _ h2)

theorem jsSet_of_not_mem {α : Type} {l : List (String × α)} {k : String} {v : α}
    (h : k ∉ l.map Prod.fst) : jsSet l k v = l ++ [(k, v)] := by
  induction l with
  | nil => simp [jsSet]
  | cons q rest ih =>
    obtain ⟨k2, v2⟩ := q
    simp only [List.map_cons, List.mem_cons] at h
    push_neg at h
    have hne : k2 ≠ k := Ne.symm h.1
    simp only [jsSet, hne, if_false, List.cons_append]
    rw [ih h.2]

theorem jsSet_keys {α : Type} (l : List (String × α)) (k : String) (v : α) :
    (jsSet l k v).map Prod.fst =
      if k ∈ l.map Prod.fst then l.map Prod.fst else l.map Prod.fst ++ [k] := by
  induction l with
  | nil => simp [jsSet]
  | cons q rest ih =>
    obtain ⟨k2, v2⟩ := q
    by_cases hk : k2 = k
    · subst hk
      simp [jsSet]
    · simp only [jsSet, hk, if_false, List.map_cons, ih]
      by_cases hm : k ∈ rest.map Prod.fst <;> simp [hm, hk, Ne.symm hk]

theorem jsSet_keys_nodup {α : Type} {l : List (String × α)} {k : String} {v : α}
    (h : (l.map Prod.fst).Nodup) : ((jsSet l k v).map Prod.fst).Nodup := by
  rw [jsSet_keys]
  by_cases hm : k ∈ l.map Prod.fst
  · simpa [hm]
  · simp only [hm, if_false]
    rw [List.nodup_append]
    exact ⟨h, List.nodup_singleton _, by simp [List.disjoint_singleton, hm]⟩

theorem jsDelete_sub {α : Type} (l : List (String × α)) (k : String) :
    List.Sublist (jsDelete l k) l := by
  induction l with
  | nil => simp [jsDelete]
  | cons q rest ih =>
    obtain ⟨k2, v2⟩ := q
    by_cases hk : k2 = k
    · simp only [jsDelete, hk, if_true]
      exact List.sublist_cons_self _ _
    · simp only [jsDelete, hk, if_false]
      exact ih.cons₂ _

theorem jsDelete_keys_nodup {α : Type} {l : List (String × α)} {k : String}
    (h : (l.map Prod.fst).Nodup) : ((jsDelete l k).map Prod.fst).Nodup :=
  ((jsDelete_sub l k).map Prod.fst).nodup h

theorem jsDelete_ne_of_nodup {α : Type} {l : List (String × α)} {k : String} {p : String × α}
    (hn : (l.map Prod.fst).Nodup) (h : p ∈ jsDelete l k) : p ∈ l ∧ p.1 ≠ k := by
  induction l with
  | nil => simp [jsDelete] at h
  | cons q rest ih =>
    obtain ⟨k2, v2⟩ := q
    simp only [List.map_cons, List.nodup_cons] at hn
    simp only [jsDelete] at h
    by_cases hk : k2 = k
    · subst hk
      simp only [if_true] at h
      refine ⟨List.mem_cons_of_mem _ h, ?_⟩
      intro hpk
      exact hn.1 (hpk ▸ List.mem_map_of_mem Prod.fst h)
    · simp only [hk, if_false, List.mem_cons] at h
      rcases h with h | h
      · subst h
        exact ⟨List.mem_cons_self _ _, hk⟩
      · rcases ih hn.2 h with ⟨h1, h2⟩
        exact ⟨List.mem_cons_of_mem _ h1, h2⟩

/-- After running the trim loop over `ks`, every key of the result is
trim-fixed provided every key of the starting state was trim-fixed or a
still-pending snapshot key; key-distinctness is preserved. -/
theorem trimKeysGo_out {α : Type} {ks : List String} {st : List (String × α)}
    (hn : (st.map Prod.fst).Nodup)
    (hc : ∀ p ∈ st, jsTrim p.1 = p.1 ∨ p.1 ∈ ks) :
    ((trimKeysGo ks st).map Prod.fst).Nodup ∧
      ∀ p ∈ trimKeysGo ks st, jsTrim p.1 = p.1 := by
  induction ks generalizing st with
  | nil =>
    refine ⟨hn, fun p hp => ?_⟩
    rcases hc p hp with h | h
    · exact h
    · simp at h
  | cons k rest ih =>
    simp only [trimKeysGo]
    rcases hg : jsGet st k with _ | v
    · simp only [trimKeyStep, hg]
      apply ih hn
      intro p hp
      rcases hc p hp with h | h
      · exact Or.inl h
      · simp only [List.mem_cons] at h
        rcases h with h | h
        · exfalso
          -- the key is claimed present but `jsGet` found nothing
          subst h
          clear hc ih hn
          induction st with
          | nil => simp at hp
          | cons q r ihq =>
            obtain ⟨k2, v2⟩ := q
            simp only [jsGet] at hg
            by_cases hk : k2 = p.1
            · simp [hk] at hg
            · simp only [hk, if_false] at hg
              simp only [List.mem_cons] at hp
              rcases hp with hp | hp
              · exact hk (by rw [hp])
              · exact ihq hp hg
        · exact Or.inr h
    · simp only [trimKeyStep, hg]
      apply ih
      · exact jsSet_keys_nodup (jsDelete_keys_nodup hn)
      · intro p hp
        rcases jsSet_mem hp with h | h
        · rw [h]
          exact Or.inl (jsTrim_idem k)
        · rcases jsDelete_ne_of_nodup hn h with ⟨h1, h2⟩
          rcases hc p h1 with h3 | h3
          · exact Or.inl h3
          · simp only [List.mem_cons] at h3
            rcases h3 with h3 | h3
            · exact absurd h3 h2
            · exact Or.inr h3

theorem trimProps_out {α : Type} {l : List (String × α)} (hn : (l.map Prod.fst).Nodup) :
    ((trimProps l).map Prod.fst).Nodup ∧ ∀ p ∈ trimProps l, jsTrim p.1 = p.1 :=
  trimKeysGo_out hn (fun p hp => Or.inr (List.mem_map_of_mem _ hp))

/-- On a state whose keys are already trimmed and distinct, each loop step
deletes the head entry and re-appends it unchanged, so running the loop over
exactly the state's keys reproduces the state. -/
theorem trimKeysGo_fix {α : Type} (l acc : List (String × α))
    (hn : (((l ++ acc).map Prod.fst)).Nodup)
    (ht : ∀ p ∈ l, jsTrim p.1 = p.1) :
    trimKeysGo (l.map Prod.fst) (l ++ acc) = acc ++ l := by
  induction l generalizing acc with
  | nil => simp [trimKeysGo]
  | cons q rest ih =>
    obtain ⟨k, v⟩ := q
    have hk : k ∉ (rest ++ acc).map Prod.fst := by
      simp only [List.cons_append, List.map_cons, List.nodup_cons] at hn
      exact hn.1
    have hstep : trimKeyStep ((k, v) :: (rest ++ acc)) k = rest ++ acc ++ [(k, v)] := by
      simp [trimKeyStep, jsGet, jsDelete, ht (k, v) (List.mem_cons_self _ _),
        jsSet_of_not_mem hk]
    have hpm : ((rest ++ (acc ++ [(k, v)])).map Prod.fst).Nodup := by
      have hp : (rest ++ acc ++ [(k, v)]).Perm ((k, v) :: (rest ++ acc)) :=
        List.perm_append_singleton _ _
      rw [← List.append_assoc]
      exact ((hp.map Prod.fst).nodup_iff).2 (by simpa using hn)
    have hrec := ih (acc ++ [(k, v)]) hpm (fun p hp => ht p (List.mem_cons_of_mem _ hp))
    calc trimKeysGo (((k, v) :: rest).map Prod.fst) ((k, v) :: rest ++ acc)
        = trimKeysGo (rest.map Prod.fst) (trimKeyStep ((k, v) :: (rest ++ acc)) k) := by
          simp [trimKeysGo]
      _ = trimKeysGo (rest.map Prod.fst) (rest ++ (acc ++ [(k, v)])) := by
          rw [hstep, List.append_assoc]
      _ = (acc ++ [(k, v)]) ++ rest := hrec
      _ = acc ++ (k, v) :: rest := by simp

theorem trimProps_fix {α : Type} {l : List (String × α)} (hn : (l.map Prod.fst).Nodup)
    (ht : ∀ p ∈ l, jsTrim p.1 = p.1) : trimProps l = l := by
  have := trimKeysGo_fix l [] (by simpa using hn) ht
  simpa [trimProps] using this

theorem objFromPairs_keys_nodup {α : Type} (ps : List (String × α)) :
    ((objFromPairs ps).map Prod.fst).Nodup := by
  suffices H : ∀ acc : List (String × α), (acc.map Prod.fst).Nodup →
      ((ps.foldl (fun acc q => jsSet acc q.1 q.2) acc).map Prod.fst).Nodup from
    H [] (by simp)
  induction ps with
  | nil => intro acc h; simpa using h
  | cons q rest ih =>
    intro acc h
    simp only [List.foldl_cons]
    exact ih _ (jsSet_keys_nodup h)

/-! ### The JSONSchema4 tree model

One constructor carrying the fields that the sources read or write.
`ref`/`ref2` model presence of the `$ref`/`$$ref` keys (their string values
are never read, only deleted), `dflt`/`minIt`/`maxIt` model presence of
`default`/`minItems`/`maxItems` (likewise only deleted), `isAny` models a
truthy `__is_any__` sentinel.  `type` is `string | string[]`, `items` is
`schema | schema[]`, `properties` is either a proper name-keyed map or the
malformed array-of-`{name, ...schema}` form that `traverseJsonSchema`
repairs, `required` is `boolean | string[]`, `addProps` is
`boolean | schema`. -/
inductive Js where
  | mk
      (ref ref2 : Bool)
      (type : Option (String ⊕ List String))
      (items : Option (Js ⊕ List Js))
      (properties : Option (List (String × Js) ⊕ List Js))
      (required : Option (Bool ⊕ List String))
      (oneOf anyOf allOf : Option (List Js))
      (name title description id tsType : Option String)
      (dflt minIt maxIt : Bool)
      (addProps : Option (Bool ⊕ Js))
      (isAny : Bool) : Js

def Js.ref : Js → Bool
  | .mk r _ _ _ _ _ _ _ _ _ _ _ _ _ _ _ _ _ _ => r

def Js.ref2 : Js → Bool
  | .mk _ r _ _ _ _ _ _ _ _ _ _ _ _ _ _ _ _ _ => r

def Js.type : Js → Option (String ⊕ List String)
  | .mk _ _ t _ _ _ _ _ _ _ _ _ _ _ _ _ _ _ _ => t

def Js.items : Js → Option (Js ⊕ List Js)
  | .mk _ _ _ i _ _ _ _ _ _ _ _ _ _ _ _ _ _ _ => i

def Js.properties : Js → Option (List (String × Js) ⊕ List Js)
  | .mk _ _ _ _ p _ _ _ _ _ _ _ _ _ _ _ _ _ _ => p

def Js.required : Js → Option (Bool ⊕ List String)
  | .mk _ _ _ _ _ q _ _ _ _ _ _ _ _ _ _ _ _ _ => q

def Js.oneOf : Js → Option (List Js)
  | .mk _ _ _ _ _ _ o _ _ _ _ _ _ _ _ _ _ _ _ => o

def Js.anyOf : Js → Option (List Js)
  | .mk _ _ _ _ _ _ _ o _ _ _ _ _ _ _ _ _ _ _ => o

def Js.allOf : Js → Option (List Js)
  | .mk _ _ _ _ _ _ _ _ o _ _ _ _ _ _ _ _ _ _ => o

def Js.name : Js → Option String
  | .mk _ _ _ _ _ _ _ _ _ n _ _ _ _ _ _ _ _ _ => n

def Js.title : Js → Option String
  | .mk _ _ _ _ _ _ _ _ _ _ t _ _ _ _ _ _ _ _ => t

def Js.description : Js → Option String
  | .mk _ _ _ _ _ _ _ _ _ _ _ d _ _ _ _ _ _ _ => d

def Js.id : Js → Option String
  | .mk _ _ _ _ _ _ _ _ _ _ _ _ i _ _ _ _ _ _ => i

def Js.tsType : Js → Option String
  | .mk _ _ _ _ _ _ _ _ _ _ _ _ _ t _ _ _ _ _ => t

def Js.dflt : Js → Bool
  | .mk _ _ _ _ _ _ _ _ _ _ _ _ _ _ d _ _ _ _ => d

def Js.minIt : Js → Bool
  | .mk _ _ _ _ _ _ _ _ _ _ _ _ _ _ _ m _ _ _ => m

def Js.maxIt : Js → Bool
  | .mk _ _ _ _ _ _ _ _ _ _ _ _ _ _ _ _ m _ _ => m

def Js.addProps : Js → Option (Bool ⊕ Js)
  | .mk _ _ _ _ _ _ _ _ _ _ _ _ _ _ _ _ _ a _ => a

def Js.isAny : Js → Bool
  | .mk _ _ _ _ _ _ _ _ _ _ _ _ _ _ _ _ _ _ a => a

/-- The empty schema object `{}`. -/
def Js.empty : Js :=
  .mk false false none none none none none none none none none none none none false false false none false

/-- Caller-supplied `customTypeMapping` object. -/
abbrev CMap : Type := List (String × String)

/-! ### `processJsonSchema` (src/utils/apifox.ts, lines 252-312)

The source expresses the pass as `traverseJsonSchema` (repair the
array-form `properties`, apply the callback, then recurse into
`properties` values, `items`, `oneOf`, `anyOf`, `allOf`) instantiated with
the normalizing callback (drop `$ref`/`$$ref`, collapse a non-empty
tuple-`items` of a node whose `type` is exactly `"array"` to its first
element, lowercase-and-map the type names, trim property names and the
`required` list).  Here the traversal is inlined with that callback. -/

/-- Repair step of `traverseJsonSchema`: an array-form `properties` (from
`Mock.toJSONSchema`) is rebuilt into the name-keyed mapping
`props[js.name] = js` (an absent `name` yields the JavaScript key
`"undefined"`); a map-form `properties` is left alone. -/
def repairVal : (List (String × Js) ⊕ List Js) → List (String × Js)
  | Sum.inl l => l
  | Sum.inr js => objFromPairs (js.map (fun j => (j.name.getD "undefined", j)))

/-- The fixed lowercase type-name table of `processJsonSchema`. -/
def builtinTypeMap : List (String × String) :=
  [("byte", "integer"), ("short", "integer"), ("int", "integer"), ("long", "integer"),
   ("float", "number"), ("double", "number"), ("bigdecimal", "number"),
   ("char", "string"), ("void", "null")]

/-- The effective `typeMapping` object: the built-in table spread together
with the caller table under lowercased keys (later entries win, as in the
source's object literal with `...mapKeys(customTypeMapping, lowercase)`). -/
def typeMappingTable (m : CMap) : List (String × String) :=
  objFromPairs (builtinTypeMap ++ m.map (fun p => (jsLower p.1, p.2)))

/-- One type name through `type.toLowerCase()` then
`typeMapping[type] || type`. -/
def normSingle (m : CMap) (t : String) : String :=
  let lt := jsLower t
  match jsGet (typeMappingTable m) lt with
  | some v => if v = "" then lt else v
  | none => lt

/-- The `if (jsonSchema.type)` block: a falsy type (absent, or the empty
string) is left alone; otherwise every name in `castArray(type)` is
lowercased and mapped, and a non-array type takes `types[0]`. -/
def typeStep (m : CMap) : Option (String ⊕ List String) → Option (String ⊕ List String)
  | none => none
  | some (Sum.inl t) => if t = "" then some (Sum.inl t) else some (Sum.inl (normSingle m t))
  | some (Sum.inr ts) => some (Sum.inr (ts.map (normSingle m)))

/-- Trim of the `required` name list (applied only when `properties` is
present; a boolean `required` is left alone). -/
def reqStep : Option (Bool ⊕ List String) → Option (Bool ⊕ List String)
  | some (Sum.inr rs) => some (Sum.inr (rs.map jsTrim))
  | r => r

theorem sizeOf_lt_of_val_mem_repair {prv : List (String × Js) ⊕ List Js} {v : Js}
    (hv : v ∈ (repairVal prv).map Prod.snd) : sizeOf v < sizeOf prv := by
  rcases prv with l0 | js0
  · have := sizeOf_lt_of_mem_snd hv
    simp only [repairVal] at this
    simp
    omega
  · simp only [repairVal] at hv
    rcases List.mem_map.1 hv with ⟨q0, hq0, hq0v⟩
    have h2 : q0.2 ∈ (js0.map (fun j => (j.name.getD "undefined", j))).map Prod.snd :=
      objFromPairs_snd_mem hq0
    rcases List.mem_map.1 h2 with ⟨q, hq, hqv⟩
    rcases List.mem_map.1 hq with ⟨j, hj, hjq⟩
    have h3 := List.sizeOf_lt_of_mem hj
    rw [← hjq] at hqv
    simp at hqv
    rw [hq0v] at hqv
    rw [← hqv]
    simp
    omega

theorem sizeOf_repairVal_bound {prv : List (String × Js) ⊕ List Js}
    {p : String × Js} (hm : p ∈ trimProps (repairVal prv)) :
    sizeOf p.2 < sizeOf prv :=
  sizeOf_lt_of_val_mem_repair (trimProps_snd_mem hm)

theorem sizeOf_repairVal_mem {prv : List (String × Js) ⊕ List Js}
    {p : String × Js} (hm : p ∈ repairVal prv) :
    sizeOf p.2 < sizeOf prv :=
  sizeOf_lt_of_val_mem_repair (List.mem_map_of_mem Prod.snd hm)

/-- Model of `processJsonSchema(jsonSchema, customTypeMapping)`:
`traverseJsonSchema` inlined with the normalizing callback. -/
def procJs (m : CMap) (s : Js) : Js :=
  match s with
  | .mk _ _ ty its pr rq o1 o2 o3 nm ti de idf tst df mi ma ap ia =>
    let ty2 := typeStep m ty
    let rq2 := match pr with
      | some _ => reqStep rq
      | none => rq
    let pr2 : Option (List (String × Js) ⊕ List Js) :=
      match h : pr with
      | some prv =>
        some (Sum.inl ((trimProps (repairVal prv)).attach.map (fun x => (x.val.1, procJs m x.val.2))))
      | none => none
    let its2 : Option (Js ⊕ List Js) :=
      match h1 : ty, h2 : its with
      | some (Sum.inl t), some (Sum.inr (a :: rest)) =>
        if t = "array" then some (Sum.inl (procJs m a))
        else some (Sum.inr ((a :: rest).attach.map (fun x => procJs m x.val)))
      | _, some (Sum.inl it) => some (Sum.inl (procJs m it))
      | _, some (Sum.inr ls) => some (Sum.inr (ls.attach.map (fun x => procJs m x.val)))
      | _, none => none
    let o1b : Option (List Js) := match h : o1 with
      | some ls => some (ls.attach.map (fun x => procJs m x.val))
      | none => none
    let o2b : Option (List Js) := match h : o2 with
      | some ls => some (ls.attach.map (fun x => procJs m x.val))
      | none => none
    let o3b : Option (List Js) := match h : o3 with
      | some ls => some (ls.attach.map (fun x => procJs m x.val))
      | none => none
    .mk false false ty2 its2 pr2 rq2 o1b o2b o3b nm ti de idf tst df mi ma ap ia
termination_by sizeOf s
decreasing_by
  all_goals simp_wf
  all_goals try subst h
  all_goals try subst h2
  all_goals first
    | omega
    | (rcases x with ⟨⟨k, v⟩, hm⟩
       have hx := sizeOf_repairVal_bound hm
       simp only [sizeOf] at hx ⊢
       simp
       omega)
    | (rcases x with ⟨y, hm⟩
       have hx := List.sizeOf_lt_of_mem hm
       simp at hx ⊢
       omega)

/-- The recursion of `processJsonSchema` into the (repaired, trimmed)
`properties` values. -/
def procProps (m : CMap) (pr : Option (List (String × Js) ⊕ List Js)) :
    Option (List (String × Js) ⊕ List Js) :=
  match pr with
  | some prv => some (Sum.inl ((trimProps (repairVal prv)).map (fun p => (p.1, procJs m p.2))))
  | none => none

/-- The tuple-`items` collapse of `processJsonSchema` (a node whose `type`
is exactly the string `"array"` keeps only the first element of an
array-valued non-empty `items`) followed by the recursion into
`castArray(items)`. -/
def procItems (m : CMap) (ty : Option (String ⊕ List String)) (its : Option (Js ⊕ List Js)) :
    Option (Js ⊕ List Js) :=
  match ty, its with
  | some (Sum.inl t), some (Sum.inr (a :: rest)) =>
    if t = "array" then some (Sum.inl (procJs m a))
    else some (Sum.inr ((a :: rest).map (procJs m)))
  | _, some (Sum.inl it) => some (Sum.inl (procJs m it))
  | _, some (Sum.inr ls) => some (Sum.inr (ls.map (procJs m)))
  | _, none => none

/-- The `required` handling of `processJsonSchema`: trimmed only when
`properties` is present. -/
def procReq (pr : Option (List (String × Js) ⊕ List Js)) (rq : Option (Bool ⊕ List String)) :
    Option (Bool ⊕ List String) :=
  match pr with
  | some _ => reqStep rq
  | none => rq

/-- The recursion of `processJsonSchema` into a `oneOf`/`anyOf`/`allOf`
list. -/
def procList (m : CMap) : Option (List Js) → Option (List Js)
  | some ls => some (ls.map (procJs m))
  | none => none

theorem attach_map_pair_proc (m : CMap) (l : List (String × Js)) :
    l.attach.map (fun x => (x.val.1, procJs m x.val.2)) = l.map (fun p => (p.1, procJs m p.2)) :=
  List.attach_map_coe l (fun p => (p.1, procJs m p.2))

theorem attach_map_proc (m : CMap) (l : List Js) :
    l.attach.map (fun x => procJs m x.val) = l.map (procJs m) :=
  List.attach_map_coe l (procJs m)

/-- Unfolding equation for `procJs` with the `attach` bookkeeping removed. -/
theorem procJs_eq (m : CMap) (r r2 : Bool) (ty : Option (String ⊕ List String))
    (its : Option (Js ⊕ List Js)) (pr : Option (List (String × Js) ⊕ List Js))
    (rq : Option (Bool ⊕ List String)) (o1 o2 o3 : Option (List Js))
    (nm ti de idf tst : Option String) (df mi ma : Bool) (ap : Option (Bool ⊕ Js)) (ia : Bool) :
    procJs m (.mk r r2 ty its pr rq o1 o2 o3 nm ti de idf tst df mi ma ap ia) =
      .mk false false (typeStep m ty) (procItems m ty its) (procProps m pr) (procReq pr rq)
        (procList m o1) (procList m o2) (procList m o3) nm ti de idf tst df mi ma ap ia := by
  rw [procJs.eq_def]
  simp only [attach_map_pair_proc, attach_map_proc]
  rcases pr with _ | prv <;> rcases o1 with _ | l1 <;> rcases o2 with _ | l2 <;>
    rcases o3 with _ | l3 <;> rcases ty with _ | ⟨t | ts⟩ <;>
    rcases its with _ | ⟨it | ls⟩ <;> try rcases ls with _ | ⟨a, rest⟩
  all_goals first
    | rfl
    | simp [procItems, procProps, procReq, procList]

/-! ### Side conditions under which `processJsonSchema` is idempotent -/

/-- Condition on the effective type-mapping table: every non-empty target
is already lowercase and is stable under a second lookup (the table does
not map it to some third name).  The built-in table satisfies this with any
caller table whose targets are the schema primitive names and whose
(lowercased) keys do not collide with those names. -/
def TableOK (m : CMap) : Prop :=
  ∀ p ∈ typeMappingTable m, p.2 = "" ∨
    (jsLower p.2 = p.2 ∧
      (jsGet (typeMappingTable m) p.2 = none ∨ jsGet (typeMappingTable m) p.2 = some "" ∨
        jsGet (typeMappingTable m) p.2 = some p.2))

theorem normSingle_stable {m : CMap} (hT : TableOK m) (t : String) :
    normSingle m (normSingle m t) = normSingle m t := by
  unfold normSingle
  rcases hg : jsGet (typeMappingTable m) (jsLower t) with _ | v
  · simp [hg, jsLower_idem]
  · by_cases hv : v = ""
    · subst hv
      simp [hg, jsLower_idem]
    · have hmem : v = "" ∨ (jsLower v = v ∧
          (jsGet (typeMappingTable m) v = none ∨ jsGet (typeMappingTable m) v = some "" ∨
            jsGet (typeMappingTable m) v = some v)) := hT (jsLower t, v) (jsGet_mem hg)
      rcases hmem with h | ⟨hlow, hnext⟩
      · exact absurd h hv
      · rcases hnext with h2 | h2 | h2 <;> simp [hg, hv, hlow, h2]

/-- Input-side condition for idempotence of `processJsonSchema`: at every
node of the tree, (a) a non-empty tuple-valued `items` may sit only under a
`type` that either is already exactly `"array"` or does not normalize to
`"array"` (otherwise the collapse fires only on the second pass), and (b) a
map-form `properties` object has distinct keys (automatic for real
JavaScript objects). -/
def schemaOK (m : CMap) (s : Js) : Prop :=
  match s with
  | .mk _ _ ty its pr _ o1 o2 o3 _ _ _ _ _ _ _ _ _ _ =>
    (match ty, its with
     | some (Sum.inl t), some (Sum.inr (a :: rest)) => t = "array" ∨ normSingle m t ≠ "array"
     | _, _ => True) ∧
    (match h : its with
     | some (Sum.inl it) => schemaOK m it
     | some (Sum.inr ls) => ∀ j ∈ ls, schemaOK m j
     | none => True) ∧
    (match h : pr with
     | some (Sum.inl l) => (l.map Prod.fst).Nodup ∧ ∀ p ∈ l, schemaOK m p.2
     | some (Sum.inr js) => ∀ j ∈ js, schemaOK m j
     | none => True) ∧
    (match h : o1 with | some ls => ∀ j ∈ ls, schemaOK m j | none => True) ∧
    (match h : o2 with | some ls => ∀ j ∈ ls, schemaOK m j | none => True) ∧
    (match h : o3 with | some ls => ∀ j ∈ ls, schemaOK m j | none => True)
termination_by sizeOf s
decreasing_by
  all_goals simp_wf
  all_goals try subst h
  all_goals (first
    | omega
    | (simp
       omega)
    | (have hx := List.sizeOf_lt_of_mem (by assumption : _ ∈ _)
       simp at hx ⊢
       omega)
    | (have hx := List.sizeOf_lt_of_mem (by assumption : _ ∈ _)
       omega)
    | (have hx := sizeOf_lt_of_mem_snd (List.mem_map_of_mem Prod.snd (by assumption : _ ∈ _))
       simp at hx ⊢
       omega)
    | (have hx := sizeOf_lt_of_mem_snd (List.mem_map_of_mem Prod.snd (by assumption : _ ∈ _))
       omega))

/-- Shape of an already-normalized tree: no `$ref`/`$$ref`, type names that
renormalize to themselves, no still-collapsible tuple `items`, a map-form
`properties` object with distinct, trimmed keys, a trimmed `required` list
whenever `properties` is present, and the same recursively. -/
def NJs (m : CMap) (s : Js) : Prop :=
  match s with
  | .mk r r2 ty its pr rq o1 o2 o3 _ _ _ _ _ _ _ _ _ _ =>
    r = false ∧ r2 = false ∧
    (match ty with
     | none => True
     | some (Sum.inl t) => t = "" ∨ normSingle m t = t
     | some (Sum.inr ts) => ∀ t ∈ ts, normSingle m t = t) ∧
    (match h : its with
     | none => True
     | some (Sum.inl it) => NJs m it
     | some (Sum.inr ls) => (ls = [] ∨ ty ≠ some (Sum.inl "array")) ∧ ∀ j ∈ ls, NJs m j) ∧
    (match h : pr with
     | none => True
     | some (Sum.inl l) =>
       (l.map Prod.fst).Nodup ∧ (∀ p ∈ l, jsTrim p.1 = p.1) ∧ ∀ p ∈ l, NJs m p.2
     | some (Sum.inr js) => False) ∧
    (match pr with
     | none => True
     | some _ =>
       match rq with
       | some (Sum.inr rs) => ∀ r0 ∈ rs, jsTrim r0 = r0
       | _ => True) ∧
    (match h : o1 with | some ls => ∀ j ∈ ls, NJs m j | none => True) ∧
    (match h : o2 with | some ls => ∀ j ∈ ls, NJs m j | none => True) ∧
    (match h : o3 with | some ls => ∀ j ∈ ls, NJs m j | none => True)
termination_by sizeOf s
decreasing_by
  all_goals simp_wf
  all_goals try subst h
  all_goals (first
    | omega
    | (simp
       omega)
    | (have hx := List.sizeOf_lt_of_mem (by assumption : _ ∈ _)
       simp at hx ⊢
       omega)
    | (have hx := List.sizeOf_lt_of_mem (by assumption : _ ∈ _)
       omega)
    | (have hx := sizeOf_lt_of_mem_snd (List.mem_map_of_mem Prod.snd (by assumption : _ ∈ _))
       simp at hx ⊢
       omega)
    | (have hx := sizeOf_lt_of_mem_snd (List.mem_map_of_mem Prod.snd (by assumption : _ ∈ _))
       omega))

/-- A tree that already has the normalized shape is a fixed point of the
pass. -/
theorem procJs_of_norm (m : CMap) : (t : Js) → NJs m t → procJs m t = t
  | .mk r r2 ty its pr rq o1 o2 o3 nm ti de idf tst df mi ma ap ia => fun h => by
    rw [NJs.eq_def] at h
    obtain ⟨h1, h2, hty, hits, hpr, hrq, ho1, ho2, ho3⟩ := h
    subst h1
    subst h2
    rw [procJs_eq]
    have ety : typeStep m ty = ty := by
      rcases ty with _ | ⟨t0 | ts⟩
      · rfl
      · rcases hty with h | h
        · subst h
          simp [typeStep]
        · by_cases h0 : t0 = "" <;> simp [typeStep, h0, h]
      · simp only [typeStep, Option.some.injEq, Sum.inr.injEq]
        calc ts.map (normSingle m) = ts.map id := List.map_congr_left (fun x hx => hty x hx)
          _ = ts := List.map_id ts
    have eits : procItems m ty its = its := by
      rcases its with _ | ⟨it | ls⟩
      · rcases ty with _ | ⟨t0 | ts⟩ <;> rfl
      · have hrec := procJs_of_norm m it hits
        rcases ty with _ | ⟨t0 | ts⟩ <;> simp [procItems, hrec]
      · obtain ⟨hne, hall⟩ := hits
        have hmap : ls.map (procJs m) = ls := by
          calc ls.map (procJs m) = ls.map id :=
              List.map_congr_left (fun j hj => procJs_of_norm m j (hall j hj))
            _ = ls := List.map_id ls
        rcases ty with _ | ⟨t0 | ts⟩
        · rcases ls with _ | ⟨a, rest⟩ <;> simp [procItems, hmap]
        · rcases ls with _ | ⟨a, rest⟩
          · simp [procItems]
          · have ht0 : t0 ≠ "array" := by
              rcases hne with h | h
              · simp at h
              · intro hc
                exact h (by rw [hc])
            simp only [procItems, ht0, if_false]
            rw [hmap]
        · rcases ls with _ | ⟨a, rest⟩ <;> simp [procItems, hmap]
    have epr : procProps m pr = pr := by
      rcases pr with _ | ⟨l | js⟩
      · rfl
      · obtain ⟨hnd, htr, hvals⟩ := hpr
        have hfix := trimProps_fix hnd htr
        have hmap : l.map (fun p => (p.1, procJs m p.2)) = l := by
          calc l.map (fun p => (p.1, procJs m p.2)) = l.map id :=
              List.map_congr_left (fun p hp => by
                have hv := procJs_of_norm m p.2 (hvals p hp)
                simp [hv])
            _ = l := List.map_id l
        simp [procProps, repairVal, hfix, hmap]
      · exact hpr.elim
    have erq : procReq pr rq = rq := by
      rcases pr with _ | pv
      · rfl
      · rcases rq with _ | ⟨b | rs⟩
        · rfl
        · rfl
        · simp only [procReq, reqStep, Option.some.injEq, Sum.inr.injEq]
          calc rs.map jsTrim = rs.map id := List.map_congr_left (fun x hx => hrq x hx)
            _ = rs := List.map_id rs
    have eo1 : procList m o1 = o1 := by
      rcases o1 with _ | ls
      · rfl
      · simp only [procList, Option.some.injEq]
        calc ls.map (procJs m) = ls.map id :=
            List.map_congr_left (fun j hj => procJs_of_norm m j (ho1 j hj))
          _ = ls := List.map_id ls
    have eo2 : procList m o2 = o2 := by
      rcases o2 with _ | ls
      · rfl
      · simp only [procList, Option.some.injEq]
        calc ls.map (procJs m) = ls.map id :=
            List.map_congr_left (fun j hj => procJs_of_norm m j (ho2 j hj))
          _ = ls := List.map_id ls
    have eo3 : procList m o3 = o3 := by
      rcases o3 with _ | ls
      · rfl
      · simp only [procList, Option.some.injEq]
        calc ls.map (procJs m) = ls.map id :=
            List.map_congr_left (fun j hj => procJs_of_norm m j (ho3 j hj))
          _ = ls := List.map_id ls
    rw [ety, eits, epr, erq, eo1, eo2, eo3]
termination_by t => sizeOf t
decreasing_by
  all_goals simp_wf
  all_goals (first
    | omega
    | (simp
       omega)
    | (have hx := List.sizeOf_lt_of_mem (by assumption : _ ∈ _)
       simp at hx ⊢
       omega)
    | (have hx := List.sizeOf_lt_of_mem (by assumption : _ ∈ _)
       omega)
    | (have hx := sizeOf_lt_of_mem_snd (List.mem_map_of_mem Prod.snd (by assumption : _ ∈ _))
       simp at hx ⊢
       omega)
    | (have hx := sizeOf_lt_of_mem_snd (List.mem_map_of_mem Prod.snd (by assumption : _ ∈ _))
       omega))

/-- Under the table and input side conditions, one pass of
`processJsonSchema` produces a normalized-shape tree. -/
theorem norm_procJs (m : CMap) (hT : TableOK m) : (s : Js) → schemaOK m s → NJs m (procJs m s)
  | .mk r r2 ty its pr rq o1 o2 o3 nm ti de idf tst df mi ma ap ia => fun hs => by
    rw [schemaOK.eq_def] at hs
    obtain ⟨hcol, hits, hpr, ho1, ho2, ho3⟩ := hs
    rw [procJs_eq]
    rw [NJs.eq_def]
    refine ⟨rfl, rfl, ?_, ?_, ?_, ?_, ?_, ?_, ?_⟩
    · rcases ty with _ | ⟨t0 | ts⟩
      · simp [typeStep]
      · by_cases h0 : t0 = ""
        · subst h0
          simp [typeStep]
        · simp only [typeStep, h0, if_false]
          exact Or.inr (normSingle_stable hT t0)
      · simp only [typeStep]
        intro x hx
        rcases List.mem_map.1 hx with ⟨t1, ht1, hmap⟩
        rw [← hmap]
        exact normSingle_stable hT t1
    · rcases its with _ | ⟨it | ls⟩
      · rcases ty with _ | ⟨t0 | ts⟩ <;> simp [procItems]
      · have hrec := norm_procJs m hT it hits
        rcases ty with _ | ⟨t0 | ts⟩ <;> (simp only [procItems]; exact hrec)
      · rcases ls with _ | ⟨a, rest⟩
        · rcases ty with _ | ⟨t0 | ts⟩ <;> simp [procItems]
        · have hall : ∀ j ∈ a :: rest, schemaOK m j := hits
          rcases ty with _ | ⟨t0 | ts⟩
          · simp only [procItems]
            refine ⟨Or.inr (by simp [typeStep]), ?_⟩
            intro j hj
            rcases List.mem_map.1 hj with ⟨j0, hj0, hjm⟩
            rw [← hjm]
            exact norm_procJs m hT j0 (hall j0 hj0)
          · by_cases harr : t0 = "array"
            · subst harr
              simp only [procItems, if_pos rfl]
              exact norm_procJs m hT a (hall a (List.mem_cons_self _ _))
            · simp only [procItems]
              rw [if_neg harr]
              refine ⟨Or.inr ?_, ?_⟩
              · by_cases h0 : t0 = ""
                · subst h0
                  simp [typeStep]
                · simp only [typeStep, h0, if_false]
                  rcases hcol with h | h
                  · exact absurd h harr
                  · simp [h]
              · intro j hj
                rcases List.mem_map.1 hj with ⟨j0, hj0, hjm⟩
                rw [← hjm]
                exact norm_procJs m hT j0 (hall j0 hj0)
          · simp only [procItems]
            refine ⟨Or.inr (by simp [typeStep]), ?_⟩
            intro j hj
            rcases List.mem_map.1 hj with ⟨j0, hj0, hjm⟩
            rw [← hjm]
            exact norm_procJs m hT j0 (hall j0 hj0)
    · rcases pr with _ | prv
      · simp [procProps]
      · simp only [procProps]
        have hnd : ((repairVal prv).map Prod.fst).Nodup := by
          rcases prv with l | js
          · exact hpr.1
          · exact objFromPairs_keys_nodup _
        have hout := trimProps_out hnd
        have hvals : ∀ p ∈ trimProps (repairVal prv), schemaOK m p.2 := by
          intro p hp
          have hv := trimProps_snd_mem hp
          rcases prv with l | js
          · rcases List.mem_map.1 hv with ⟨q, hq, hqv⟩
            rw [← hqv]
            exact hpr.2 q hq
          · simp only [repairVal] at hv
            rcases List.mem_map.1 hv with ⟨q, hq, hqv⟩
            have h2 : q.2 ∈ (js.map (fun j => (j.name.getD "undefined", j))).map Prod.snd :=
              objFromPairs_snd_mem hq
            rcases List.mem_map.1 h2 with ⟨q2, hq2, hq2v⟩
            rcases List.mem_map.1 hq2 with ⟨j, hj, hjq⟩
            rw [← hqv, ← hq2v, ← hjq]
            exact hpr j hj
        refine ⟨?_, ?_, ?_⟩
        · have hkeys : ((trimProps (repairVal prv)).map (fun p => (p.1, procJs m p.2))).map Prod.fst
              = (trimProps (repairVal prv)).map Prod.fst := by
            rw [List.map_map]
            rfl
          rw [hkeys]
          exact hout.1
        · intro p hp
          rcases List.mem_map.1 hp with ⟨q, hq, hqp⟩
          rw [← hqp]
          exact hout.2 q hq
        · intro p hp
          rcases List.mem_map.1 hp with ⟨q, hq, hqp⟩
          rw [← hqp]
          exact norm_procJs m hT q.2 (hvals q hq)
    · rcases pr with _ | prv
      · simp [procProps, procReq]
      · simp only [procProps, procReq, reqStep]
        rcases rq with _ | ⟨b | rs⟩
        · trivial
        · trivial
        · intro r0 hr0
          rcases List.mem_map.1 hr0 with ⟨r1, hr1, hrm⟩
          rw [← hrm]
          exact jsTrim_idem r1
    · rcases o1 with _ | ls
      · simp [procList]
      · simp only [procList]
        intro j hj
        rcases List.mem_map.1 hj with ⟨j0, hj0, hjm⟩
        rw [← hjm]
        exact norm_procJs m hT j0 (ho1 j0 hj0)
    · rcases o2 with _ | ls
      · simp [procList]
      · simp only [procList]
        intro j hj
        rcases List.mem_map.1 hj with ⟨j0, hj0, hjm⟩
        rw [← hjm]
        exact norm_procJs m hT j0 (ho2 j0 hj0)
    · rcases o3 with _ | ls
      · simp [procList]
      · simp only [procList]
        intro j hj
        rcases List.mem_map.1 hj with ⟨j0, hj0, hjm⟩
        rw [← hjm]
        exact norm_procJs m hT j0 (ho3 j0 hj0)
termination_by s => sizeOf s
decreasing_by
  all_goals simp_wf
  all_goals (first
    | omega
    | (simp
       omega)
    | (have hx := List.sizeOf_lt_of_mem (by assumption : _ ∈ _)
       simp at hx ⊢
       omega)
    | (have hx := List.sizeOf_lt_of_mem (by assumption : _ ∈ _)
       omega)
    | (have hx := sizeOf_lt_of_mem_snd (List.mem_map_of_mem Prod.snd (by assumption : _ ∈ _))
       simp at hx ⊢
       omega)
    | (have hx := sizeOf_lt_of_mem_snd (List.mem_map_of_mem Prod.snd (by assumption : _ ∈ _))
       omega)
    | (have hx := sizeOf_repairVal_bound (by assumption : _ ∈ _)
       simp at hx ⊢
       omega)
    | (have hx := sizeOf_repairVal_bound (by assumption : _ ∈ _)
       omega))

/-- Main idempotence result for `processJsonSchema` under the side
conditions. -/
theorem procJs_idem (m : CMap) (s : Js) (hT : TableOK m) (hs : schemaOK m s) :
    procJs m (procJs m s) = procJs m s :=
  procJs_of_norm m (procJs m s) (norm_procJs m hT s hs)

/-! ### `jsonSchemaToJSTTJsonSchema` (src/utils/apifox.ts, lines 319-373)

String helpers first: `toUnixPath`, POSIX `dirname`/`resolve` as used by the
`&relative/path` type-reference feature, `JSON.stringify` of a plain key. -/

/-- Model of `toUnixPath`: squash every run of `/` and `\\` characters to a
single `/`. -/
def collapseSlashChars : List Char → List Char
  | [] => []
  | c :: rest =>
    if c = '/' ∨ c = '\\' then
      '/' :: collapseSlashChars (rest.dropWhile (fun d => d = '/' || d = '\\'))
    else c :: collapseSlashChars rest
termination_by l => l.length
decreasing_by
  · have := dropWhile_length_le (fun d => d = '/' || d = '\\') rest
    simp
    omega
  · simp

def toUnixPath (p : String) : String :=
  ⟨collapseSlashChars p.data⟩

/-- The `replace(/\/{2,}/g, "/")` step applied to the joined current path:
squash runs of two or more `/` to one. -/
def collapseMultiSlash : List Char → List Char
  | [] => []
  | c :: rest =>
    if c = '/' then '/' :: collapseMultiSlash (rest.dropWhile (fun d => d = '/'))
    else c :: collapseMultiSlash rest
termination_by l => l.length
decreasing_by
  · have := dropWhile_length_le (fun d => d = '/') rest
    simp
    omega
  · simp

/-- POSIX `path.dirname`. -/
def posixDirname (p : String) : String :=
  let parts := (p.splitOn "/").dropLast
  if parts.isEmpty ∨ parts = [""] then (if p.startsWith "/" then "/" else ".")
  else String.intercalate "/" parts

/-- Normalize the `/`-separated segments of an absolute path: drop empty and
`.` segments, let `..` pop (staying at the root). -/
def resolveSegs (segs : List String) : List String :=
  segs.foldl
    (fun st seg =>
      if seg = "" ∨ seg = "." then st
      else if seg = ".." then st.dropLast
      else st ++ [seg])
    []

/-- POSIX `path.resolve(base, rel)` for an absolute `base` (which is how the
source always calls it: the base is `/`-rooted from the current traversal
path). -/
def posixResolve (base rel : String) : String :=
  let joined := if rel.startsWith "/" then rel else base ++ "/" ++ rel
  "/" ++ String.intercalate "/" (resolveSegs (joined.splitOn "/"))

/-- The `replace(/^[a-z]+:/i, "")` step: strip a leading drive-like
`letters:` marker. -/
def stripDriveMark (p : String) : String :=
  let letters := p.data.takeWhile (fun c => c.isAlpha)
  match p.data.drop letters.length with
  | ':' :: rest => if letters.isEmpty then p else ⟨rest⟩
  | _ => p

/-- `JSON.stringify` of a key string (quote, escaping quotes and
backslashes; the generated keys never contain control characters). -/
def jsonStringify (s : String) : String :=
  ⟨'"' :: (s.data.foldr
      (fun c acc =>
        if c = '"' then '\\' :: '"' :: acc
        else if c = '\\' then '\\' :: '\\' :: acc
        else c :: acc)
      ['"'])⟩

/-- The absolute segment list of a `&`-type reference, resolved against the
node's position `currentPath` in the tree. -/
def refSegs (currentPath : List String) (rel : String) : List String :=
  ((toUnixPath (stripDriveMark (posixResolve
      (posixDirname ⟨collapseMultiSlash ("/" ++ String.intercalate "/" currentPath).data⟩)
      rel))).splitOn "/").filter (fun seg => seg ≠ "")

/-- The `NonNullable<...typeName["k1"]>["k2"]>...` chain built from the
resolved segments. -/
def tsRefType (typeName : String) (segs : List String) : String :=
  let pr := segs.foldl
    (fun pr k => (pr.1 ++ "NonNullable<", pr.2 ++ "[" ++ jsonStringify k ++ "]>"))
    ("", typeName)
  pr.1 ++ pr.2

theorem enum_snd_mem {α : Type} {l : List α} {p : Nat × α} (h : p ∈ l.enum) : p.2 ∈ l := by
  rcases List.mk_mem_enum_iff_getElem?.1 (by rwa [← @Prod.mk.eta _ _ p] at h) with hg
  exact List.getElem?_mem hg

/-- Model of `jsonSchemaToJSTTJsonSchema`'s traversal (`traverseJsonSchema`
inlined with the JSTT callback): repair array-form `properties`, set
`tsType` from a `&`-reference found in `title` (or, when `title` is absent,
`description`), delete `title`/`id`/`minItems`/`maxItems`/`default`, force
`additionalProperties: false` on `type: "object"` nodes, then recurse with
the extended current path (`castArray(items)` indices appear as numeric
path segments). -/
def jsttJs (typeName : String) (currentPath : List String) (s : Js) : Js :=
  match s with
  | .mk ref ref2 ty its pr rq o1 o2 o3 nm ti de idf tst df mi ma ap ia =>
    let refValue : Option String :=
      match ti with
      | some t => some t
      | none => de
    let tst2 : Option String :=
      match refValue with
      | some rv =>
        if rv.startsWith "&" then some (tsRefType typeName (refSegs currentPath (rv.drop 1)))
        else tst
      | none => tst
    let ap2 : Option (Bool ⊕ Js) :=
      if ty = some (Sum.inl "object") then some (Sum.inl false) else ap
    let pr2 : Option (List (String × Js) ⊕ List Js) :=
      match h : pr with
      | some prv =>
        some (Sum.inl ((repairVal prv).attach.map
          (fun x => (x.val.1, jsttJs typeName (currentPath ++ [x.val.1]) x.val.2))))
      | none => none
    let its2 : Option (Js ⊕ List Js) :=
      match h : its with
      | some (Sum.inl it) => some (Sum.inl (jsttJs typeName (currentPath ++ ["0"]) it))
      | some (Sum.inr ls) =>
        some (Sum.inr (ls.enum.attach.map
          (fun x => jsttJs typeName (currentPath ++ [toString x.val.1]) x.val.2)))
      | none => none
    let o1b : Option (List Js) := match h : o1 with
      | some ls => some (ls.attach.map (fun x => jsttJs typeName currentPath x.val))
      | none => none
    let o2b : Option (List Js) := match h : o2 with
      | some ls => some (ls.attach.map (fun x => jsttJs typeName currentPath x.val))
      | none => none
    let o3b : Option (List Js) := match h : o3 with
      | some ls => some (ls.attach.map (fun x => jsttJs typeName currentPath x.val))
      | none => none
    .mk ref ref2 ty its2 pr2 rq o1b o2b o3b nm none de none tst2 false false false ap2 ia
termination_by sizeOf s
decreasing_by
  all_goals simp_wf
  all_goals try subst h
  all_goals (first
    | omega
    | (simp
       omega)
    | (rcases x with ⟨⟨k, v⟩, hm⟩
       have hx := sizeOf_repairVal_mem hm
       simp only [sizeOf] at hx ⊢
       simp
       omega)
    | (rcases x with ⟨y, hm⟩
       have hx := sizeOf_repairVal_mem hm
       simp at hx ⊢
       omega)
    | (rcases x with ⟨y, hm⟩
       have hx := List.sizeOf_lt_of_mem (enum_snd_mem hm)
       simp at hx ⊢
       omega)
    | (rcases x with ⟨y, hm⟩
       have hx := List.sizeOf_lt_of_mem hm
       simp at hx ⊢
       omega))

/-- Model of `jsonSchemaToJSTTJsonSchema(jsonSchema, typeName)`: the root
`description` is deleted up front (so the external compiler does not lift
it into a comment), then the traversal runs from the empty path. -/
def jsonSchemaToJSTTJsonSchema (jsonSchema : Js) (typeName : String) : Js :=
  jsttJs typeName []
    (match jsonSchema with
     | .mk ref ref2 ty its pr rq o1 o2 o3 nm ti de idf tst df mi ma ap ia =>
       .mk ref ref2 ty its pr rq o1 o2 o3 nm ti none idf tst df mi ma ap ia)

/-! ### `jsonSchemaToType` (src/utils/apifox.ts, lines 530-549) -/

/-- Model of lodash `isEmpty` on a schema object: no own keys. -/
def jsIsEmpty (s : Js) : Bool :=
  match s with
  | .mk ref ref2 ty its pr rq o1 o2 o3 nm ti de idf tst df mi ma ap ia =>
    !ref && !ref2 && ty.isNone && its.isNone && pr.isNone && rq.isNone && o1.isNone &&
      o2.isNone && o3.isNone && nm.isNone && ti.isNone && de.isNone && idf.isNone &&
      tst.isNone && !df && !mi && !ma && ap.isNone && !ia

/-- The `delete jsonSchema.__is_any__` mutation. -/
def clearAny (s : Js) : Js :=
  match s with
  | .mk ref ref2 ty its pr rq o1 o2 o3 nm ti de idf tst df mi ma ap _ =>
    .mk ref ref2 ty its pr rq o1 o2 o3 nm ti de idf tst df mi ma ap false

/-- Model of lodash `cloneDeep` in the pure embedding: the argument is
copied by value, so downstream transforms cannot reach the caller's
object. -/
def cloneDeep (s : Js) : Js := s

/-- Replace the first occurrence of `pat` (`String.prototype.replace` with a
string pattern). -/
def replaceOnceAux (pat rep : List Char) : List Char → List Char
  | [] => []
  | c :: cs =>
    if List.isPrefixOf pat (c :: cs) then rep ++ (c :: cs).drop pat.length
    else c :: replaceOnceAux pat rep cs

def replaceOnce (s pat rep : String) : String :=
  ⟨replaceOnceAux pat.data rep.data s.data⟩

/-- Model of `jsonSchemaToType(jsonSchema, typeName)`.  The external
`json-schema-to-typescript` compiler is a parameter; the function returns
the produced declaration text together with the final state of the caller's
schema argument (the in-place mutations visible to the caller). -/
def jsonSchemaToType (compile : Js → String → String) (jsonSchema : Js) (typeName : String) :
    String × Js :=
  if jsIsEmpty jsonSchema then ("export interface " ++ typeName ++ " \x7b\x7d", jsonSchema)
  else if jsonSchema.isAny then ("export type " ++ typeName ++ " = any", clearAny jsonSchema)
  else
    let fakeTypeName := "THISISAFAKETYPENAME"
    let code := compile (jsonSchemaToJSTTJsonSchema (cloneDeep jsonSchema) typeName) fakeTypeName
    (jsTrim (replaceOnce code fakeTypeName typeName), jsonSchema)

/-! ### `reachJsonSchema` (src/utils/apifox.ts, lines 700-713) -/

/-- `last.properties?.[segment]` with the falsy check `!_last`: a name-keyed
lookup in a map-form `properties` (an array-form `properties` is not
name-addressable, and schema property values are always truthy objects). -/
def propLookup (s : Js) (k : String) : Option Js :=
  match s.properties with
  | some (Sum.inl l) => jsGet l k
  | _ => none

/-- The loop of `reachJsonSchema`: on the first missing segment the whole
original schema is returned. -/
def reachAux (orig : Js) : Js → List String → Js
  | last, [] => last
  | last, seg :: rest =>
    match propLookup last seg with
    | none => orig
    | some nxt => reachAux orig nxt rest

/-- Model of `reachJsonSchema(jsonSchema, path)`. -/
def reachJsonSchema (jsonSchema : Js) (path : OneOrMore String) : Js :=
  reachAux jsonSchema jsonSchema (castArr path)

/-- Pure lookup chain: `some` exactly when every segment resolves. -/
def walkPath : Js → List String → Option Js
  | s, [] => some s
  | s, seg :: rest =>
    match propLookup s seg with
    | none => none
    | some nxt => walkPath nxt rest

theorem reachAux_walk (orig : Js) : ∀ (segs : List String) (s : Js),
    reachAux orig s segs = (walkPath s segs).getD orig
  | [], s => rfl
  | seg :: rest, s => by
    rw [reachAux, walkPath]
    rcases propLookup s seg with _ | nxt
    · rfl
    · exact reachAux_walk orig rest nxt

/-- The wrapping construction named by the round-trip property: nest a
sub-schema under a chain of single-key `properties` objects (modelled from
the spec: "a response schema wrapped ... via a configured data-key path"). -/
def wrapDataKey (sub : Js) : List String → Js
  | [] => sub
  | k :: rest =>
    .mk false false none none (some (Sum.inl [(k, wrapDataKey sub rest)])) none none none none
      none none none none none false false false none false

/-! ### `sortByWeights` (src/utils/apifox.ts, lines 720-735)

The comparator pads the shorter weight vector in place with zeros to the
common length and then returns the first non-zero componentwise difference
(the `reduce` keeps the first non-zero `a.weights[i] - b.weights[i]`).
`Array.prototype.sort` with a consistent comparator produces a stable,
sorted permutation; it is modelled by insertion sort on the comparator's
`≤ 0` relation. -/

/-- An element of a `T extends { weights: number[] }` list. -/
structure Weighted (α : Type) where
  weights : List Int
  payload : α

instance {α : Type} [DecidableEq α] : DecidableEq (Weighted α) := by
  intro x y
  rcases x with ⟨w1, p1⟩
  rcases y with ⟨w2, p2⟩
  rcases decEq w1 w2 with h | h
  · exact isFalse (by simp [h])
  · rcases ‹DecidableEq α› p1 p2 with h2 | h2
    · exact isFalse (by simp [h, h2])
    · exact isTrue (by rw [h, h2])

/-- Zero-pad a weight vector to length `n`
(`x.weights.push(...new Array(maxLen - minLen).fill(0))`). -/
def padTo (n : Nat) (w : List Int) : List Int :=
  w ++ List.replicate (n - w.length) 0

/-- The `reduce`: keep the first non-zero difference, walking the indices of
the first vector (in the source both vectors have been padded to a common
length before this runs, so the second is never shorter). -/
def firstDiff : List Int → List Int → Int
  | [], _ => 0
  | a :: as, b :: bs => if a - b = 0 then firstDiff as bs else a - b
  | a :: as, [] => if a - 0 = 0 then firstDiff as [] else a - 0

/-- The `sortByWeights` comparator on two weight vectors. -/
def jsCompare (aw bw : List Int) : Int :=
  let maxLen := max aw.length bw.length
  firstDiff (padTo maxLen aw) (padTo maxLen bw)

/-- Model of `sortByWeights(list)`. -/
def sortByWeights {α : Type} (list : List (Weighted α)) : List (Weighted α) :=
  List.insertionSort (fun a b => jsCompare a.weights b.weights ≤ 0) list

/-- Zero-padded lexicographic comparison in direct recursive form (used to
reason about the comparator). -/
def wcmp : List Int → List Int → Int
  | [], [] => 0
  | [], b :: bs => if b = 0 then wcmp [] bs else -b
  | a :: as, [] => if a = 0 then wcmp as [] else a
  | a :: as, b :: bs => if a - b = 0 then wcmp as bs else a - b
termination_by a b => a.length + b.length

theorem wcmp_nil_nil : wcmp [] [] = 0 := by
  rw [wcmp.eq_def]

theorem wcmp_nil_cons (b : Int) (bs : List Int) :
    wcmp [] (b :: bs) = if b = 0 then wcmp [] bs else -b := by
  rw [wcmp.eq_def]

theorem wcmp_cons_nil (a : Int) (as : List Int) :
    wcmp (a :: as) [] = if a = 0 then wcmp as [] else a := by
  rw [wcmp.eq_def]

theorem wcmp_cons_cons (a b : Int) (as bs : List Int) :
    wcmp (a :: as) (b :: bs) = if a - b = 0 then wcmp as bs else a - b := by
  rw [wcmp.eq_def]

theorem padTo_nil (n : Nat) : padTo n [] = List.replicate n 0 := by
  simp [padTo]

theorem padTo_cons (n : Nat) (a : Int) (as : List Int) :
    padTo (n + 1) (a :: as) = a :: padTo n as := by
  simp [padTo, Nat.succ_sub_succ]

theorem firstDiff_repl (n : Nat) : firstDiff (List.replicate n 0) (List.replicate n 0) = 0 := by
  induction n with
  | zero => rfl
  | succ k ih => simp [List.replicate_succ, firstDiff, ih]

theorem firstDiff_pad : (a b : List Int) → (n : Nat) → a.length ≤ n → b.length ≤ n →
    firstDiff (padTo n a) (padTo n b) = wcmp a b
  | [], [], n => fun _ _ => by
    rw [padTo_nil, firstDiff_repl, wcmp_nil_nil]
  | [], b :: bs, n => fun _ hb => by
    match n, hb with
    | n + 1, hb =>
      rw [padTo_nil, List.replicate_succ, padTo_cons, wcmp_nil_cons]
      have := firstDiff_pad [] bs n (by simp) (by simpa using hb)
      rw [padTo_nil] at this
      by_cases h : b = 0 <;> simp [firstDiff, h, this] <;> omega
  | a :: as, [], n => fun ha _ => by
    match n, ha with
    | n + 1, ha =>
      rw [padTo_nil, List.replicate_succ, padTo_cons, wcmp_cons_nil]
      have := firstDiff_pad as [] n (by simpa using ha) (by simp)
      rw [padTo_nil] at this
      by_cases h : a = 0 <;> simp [firstDiff, h, this]
  | a :: as, b :: bs, n => fun ha hb => by
    match n, ha, hb with
    | n + 1, ha, hb =>
      rw [padTo_cons, padTo_cons, wcmp_cons_cons]
      have := firstDiff_pad as bs n (by simpa using ha) (by simpa using hb)
      by_cases h : a - b = 0 <;> simp [firstDiff, h, this]
termination_by a b n => a.length + b.length

theorem jsCompare_eq_wcmp (a b : List Int) : jsCompare a b = wcmp a b :=
  firstDiff_pad a b (max a.length b.length) (Nat.le_max_left _ _) (Nat.le_max_right _ _)

theorem wcmp_neg : (a b : List Int) → wcmp b a = -wcmp a b
  | [], [] => by
    rw [wcmp_nil_nil]
    simp
  | [], b :: bs => by
    rw [wcmp_cons_nil, wcmp_nil_cons]
    have := wcmp_neg [] bs
    by_cases h : b = 0 <;> simp [h, this]
  | a :: as, [] => by
    rw [wcmp_nil_cons, wcmp_cons_nil]
    have := wcmp_neg as []
    by_cases h : a = 0 <;> simp [h, this]
  | a :: as, b :: bs => by
    rw [wcmp_cons_cons, wcmp_cons_cons]
    have := wcmp_neg as bs
    by_cases h : a - b = 0
    · have hb : b - a = 0 := by omega
      simp [h, hb, this]
    · have hb : ¬(b - a = 0) := by omega
      simp [h, hb]
      all_goals omega
termination_by a b => a.length + b.length

theorem wcmp_trans : (a b c : List Int) → wcmp a b ≤ 0 → wcmp b c ≤ 0 → wcmp a c ≤ 0
  | [], [], [] => fun _ _ => by rw [wcmp_nil_nil]
  | [], [], c :: cs => fun _ h2 => h2
  | [], b :: bs, [] => fun _ _ => by rw [wcmp_nil_nil]
  | [], b :: bs, c :: cs => fun h1 h2 => by
    rw [wcmp_nil_cons] at h1 ⊢
    rw [wcmp_cons_cons] at h2
    have ih := wcmp_trans [] bs cs
    by_cases hb : b = 0 <;> by_cases hc : c = 0
    · subst hb
      subst hc
      simp at h1 h2 ⊢
      exact ih h1 h2
    · subst hb
      simp at h1 h2 ⊢
      simp [hc] at h2 ⊢
      omega
    · subst hc
      simp [hb] at h1 h2 ⊢
      omega
    · simp [hb, hc] at h1 h2 ⊢
      by_cases hbc : b - c = 0 <;> simp [hbc] at h2 <;> omega
  | a :: as, [], [] => fun h1 _ => h1
  | a :: as, [], c :: cs => fun h1 h2 => by
    rw [wcmp_cons_nil] at h1
    rw [wcmp_nil_cons] at h2
    rw [wcmp_cons_cons]
    have ih := wcmp_trans as [] cs
    by_cases ha : a = 0 <;> by_cases hc : c = 0
    · subst ha
      subst hc
      simp at h1 h2 ⊢
      exact ih h1 h2
    · subst ha
      simp at h1 h2
      simp [hc]
      omega
    · subst hc
      simp [ha] at h1 h2 ⊢
      omega
    · simp [ha, hc] at h1 h2
      have hac : ¬(a - c = 0) := by omega
      simp [hac]
      omega
  | a :: as, b :: bs, [] => fun h1 h2 => by
    rw [wcmp_cons_cons] at h1
    rw [wcmp_cons_nil] at h2 ⊢
    have ih := wcmp_trans as bs []
    by_cases hab : a - b = 0 <;> by_cases hb : b = 0
    · have ha : a = 0 := by omega
      simp [hab] at h1
      simp [hb] at h2
      simp [ha]
      exact ih h1 h2
    · have ha : ¬(a = 0) := by omega
      simp [hab] at h1
      simp [hb] at h2
      simp [ha]
      omega
    · subst hb
      simp [hab] at h1
      simp at h2
      have ha : ¬(a = 0) := by omega
      simp [ha]
      omega
    · simp [hab] at h1
      simp [hb] at h2
      have ha : ¬(a = 0) := by omega
      simp [ha]
      omega
  | a :: as, b :: bs, c :: cs => fun h1 h2 => by
    rw [wcmp_cons_cons] at h1 h2 ⊢
    have ih := wcmp_trans as bs cs
    by_cases hab : a - b = 0 <;> by_cases hbc : b - c = 0
    · have hac : a - c = 0 := by omega
      simp [hab] at h1
      simp [hbc] at h2
      simp [hac]
      exact ih h1 h2
    · simp [hab] at h1
      simp [hbc] at h2
      have hac : ¬(a - c = 0) := by omega
      simp [hac]
      omega
    · simp [hab] at h1
      simp [hbc] at h2
      have hac : ¬(a - c = 0) := by omega
      simp [hac]
      omega
    · simp [hab] at h1
      simp [hbc] at h2
      have hac : ¬(a - c = 0) := by omega
      simp [hac]
      omega
termination_by a b c => a.length + b.length + c.length

instance weightedLeTotal {α : Type} :
    IsTotal (Weighted α) (fun a b => jsCompare a.weights b.weights ≤ 0) := by
  constructor
  intro x y
  rw [jsCompare_eq_wcmp, jsCompare_eq_wcmp]
  have := wcmp_neg x.weights y.weights
  omega

instance weightedLeTrans {α : Type} :
    IsTrans (Weighted α) (fun a b => jsCompare a.weights b.weights ≤ 0) := by
  constructor
  intro x y z h1 h2
  rw [jsCompare_eq_wcmp] at h1 h2 ⊢
  exact wcmp_trans _ _ _ h1 h2

/-! ### `Generator.generate` category resolution (src/cli.ts, lines 402-423)

`categoryIds.sort()` is JavaScript `Array.prototype.sort` without a
comparator: elements are compared as strings (UTF-16 code units,
lexicographically).  The string order is modelled on the characters of
`toString` of the integer ids. -/

/-- JavaScript default-sort string comparison: `x < y` on code units. -/
def strLtB : List Char → List Char → Bool
  | [], [] => false
  | [], _ :: _ => true
  | _ :: _, [] => false
  | c :: cs, d :: ds =>
    if c.toNat < d.toNat then true
    else if d.toNat < c.toNat then false
    else strLtB cs ds

/-- The order the default sort produces: `compare(a, b) <= 0`, i.e. the
string for `b` is not smaller than the string for `a`. -/
def jsSortLe (a b : Int) : Prop :=
  strLtB (toString b).data (toString a).data = false

instance : DecidableRel jsSortLe := fun a b => by
  unfold jsSortLe
  infer_instance

theorem strLtB_asymm : ∀ (x y : List Char), strLtB x y = true → strLtB y x = false := by
  intro x
  induction x with
  | nil =>
    intro y h
    rcases y with _ | ⟨d, ds⟩
    · simp [strLtB] at h
    · simp [strLtB]
  | cons c cs ih =>
    intro y h
    rcases y with _ | ⟨d, ds⟩
    · simp [strLtB] at h
    · simp only [strLtB] at h ⊢
      by_cases h1 : c.toNat < d.toNat
      · have h2 : ¬(d.toNat < c.toNat) := by omega
        simp [h1, h2]
      · by_cases h2 : d.toNat < c.toNat
        · simp [h1, h2] at h
        · simp [h1, h2] at h ⊢
          exact ih ds h

theorem strLtB_false_trans : ∀ (x y z : List Char),
    strLtB y x = false → strLtB z y = false → strLtB z x = false := by
  intro x
  induction x with
  | nil =>
    intro y z h1 h2
    rcases z with _ | ⟨z0, zs⟩ <;> simp [strLtB]
  | cons x0 xs ih =>
    intro y z h1 h2
    rcases y with _ | ⟨y0, ys⟩
    · simp [strLtB] at h1
    · rcases z with _ | ⟨z0, zs⟩
      · simp [strLtB] at h2
      · simp only [strLtB] at h1 h2 ⊢
        by_cases hyx : y0.toNat < x0.toNat
        · simp [hyx] at h1
        · by_cases hzy : z0.toNat < y0.toNat
          · simp [hzy] at h2
          · by_cases hxy : x0.toNat < y0.toNat
            · have hzx : ¬(z0.toNat < x0.toNat) := by omega
              have hxz : x0.toNat < z0.toNat := by omega
              simp [hzx, hxz]
            · by_cases hyz : y0.toNat < z0.toNat
              · have hzx : ¬(z0.toNat < x0.toNat) := by omega
                have hxz : x0.toNat < z0.toNat := by omega
                simp [hzx, hxz]
              · have hzx : ¬(z0.toNat < x0.toNat) := by omega
                have hxz : ¬(x0.toNat < z0.toNat) := by omega
                simp [hyx, hxy] at h1
                simp [hzy, hyz] at h2
                simp [hzx, hxz]
                exact ih ys zs h1 h2

instance jsSortLeTotal : IsTotal Int jsSortLe := by
  constructor
  intro a b
  unfold jsSortLe
  rcases h : strLtB (toString b).data (toString a).data with _ | _
  · exact Or.inl rfl
  · exact Or.inr (strLtB_asymm _ _ h)

instance jsSortLeTrans : IsTrans Int jsSortLe := by
  constructor
  intro a b c h1 h2
  unfold jsSortLe at h1 h2 ⊢
  exact strLtB_false_trans (toString a).data (toString b).data (toString c).data h1 h2

/-- The project-category record: `Generator.generate` reads only `_id` from
`projectInfo.cats` (and the category name elsewhere). -/
structure Category where
  _id : Int
  name : String

/-- Model of the category-id resolution block of `Generator.generate`:
`castArray` the configured id, expand a present `0` to all project category
ids, lodash-`uniq`, drop every id whose absolute value appears as the
absolute value of a negative entry, drop ids not among the project's
categories, and `sort()` with the JavaScript default (string) comparison. -/
def resolveCategoryIds (cfgId : OneOrMore Int) (cats : List Category) : List Int :=
  let ids0 := castArr cfgId
  let ids1 := if ids0.contains 0 then ids0 ++ cats.map (fun c => c._id) else ids0
  let ids2 := jsUniq ids1
  let excluded := (ids2.filter (fun i => i < 0)).map jsAbs
  let ids3 := ids2.filter (fun i => !excluded.contains (jsAbs i))
  let ids4 := ids3.filter (fun i => cats.any (fun c => c._id = i))
  List.insertionSort jsSortLe ids4

theorem jsUniq_mem : ∀ (l : List Int) (x : Int), x ∈ jsUniq l ↔ x ∈ l
  | [], x => by simp [jsUniq]
  | a :: as, x => by
    rw [jsUniq]
    constructor
    · intro h
      rcases List.mem_cons.1 h with h | h
      · simp [h]
      · have := (jsUniq_mem _ x).1 h
        exact List.mem_cons_of_mem _ (List.mem_filter.1 this).1
    · intro h
      rcases List.mem_cons.1 h with h | h
      · simp [h]
      · by_cases hx : x = a
        · simp [hx]
        · refine List.mem_cons_of_mem _ ((jsUniq_mem _ x).2 ?_)
          exact List.mem_filter.2 ⟨h, by simp [hx]⟩
termination_by l => l.length
decreasing_by
  all_goals
    (have h2 := List.length_filter_le (fun y => !decide (y = a)) as
     simp
     omega)

theorem jsUniq_nodup : ∀ l : List Int, (jsUniq l).Nodup
  | [] => by simp [jsUniq]
  | a :: as => by
    rw [jsUniq]
    refine List.nodup_cons.2 ⟨?_, jsUniq_nodup _⟩
    intro hmem
    have := (jsUniq_mem _ a).1 hmem
    simp at this
termination_by l => l.length
decreasing_by
  all_goals
    (have h2 := List.length_filter_le (fun y => !decide (y = a)) as
     simp
     omega)

/-! ### Identifier generation (src/utils/apifox.ts, lines 853-967)

`ChangeCase` is the external `change-case` library object handed to the
name generators; only its `pascalCase` member is used here. -/

/-- Modelled from the spec: the external case-transform object (the
`change-case` library) with the `pascalCase` member the name generators
use. -/
structure ChangeCase where
  pascalCase : String → String

/-- Modelled from the spec: the missing `./types` module's `Method` enum
(the canonical wire format's HTTP methods). -/
inductive Method where
  | GET | POST | PUT | DELETE | HEAD | OPTIONS | PATCH
deriving DecidableEq

/-- The runtime string value of a `Method` enum member. -/
def methodStr : Method → String
  | .GET => "GET"
  | .POST => "POST"
  | .PUT => "PUT"
  | .DELETE => "DELETE"
  | .HEAD => "HEAD"
  | .OPTIONS => "OPTIONS"
  | .PATCH => "PATCH"

/-- The `path.replace(/^\/+/, "")` step. -/
def stripLeadSlashes (s : String) : String :=
  ⟨s.data.dropWhile (fun c => c = '/')⟩

/-- The `path.replace(/^api\/+/, "")` step. -/
def stripApiLead (s : String) : String :=
  match s.data with
  | 'a' :: 'p' :: 'i' :: '/' :: rest => ⟨rest.dropWhile (fun c => c = '/')⟩
  | _ => s

/-- Scan to the first closing brace: content before it and the remainder
after it. -/
def splitAtCloseBrace : List Char → Option (List Char × List Char)
  | [] => none
  | c :: rest =>
    if c = '}' then some ([], rest)
    else
      match splitAtCloseBrace rest with
      | some (content, after) => some (c :: content, after)
      | none => none

theorem splitAtCloseBrace_len : ∀ {l co af : List Char},
    splitAtCloseBrace l = some (co, af) → af.length < l.length := by
  intro l
  induction l with
  | nil => intro co af h; simp [splitAtCloseBrace] at h
  | cons c rest ih =>
    intro co af h
    rw [splitAtCloseBrace] at h
    by_cases hc : c = '}'
    · rw [if_pos hc] at h
      simp only [Option.some.injEq, Prod.mk.injEq] at h
      rw [← h.2]
      simp only [List.length_cons]
      omega
    · rw [if_neg hc] at h
      rcases hs : splitAtCloseBrace rest with _ | ⟨co2, af2⟩
      · rw [hs] at h
        simp at h
      · rw [hs] at h
        simp only [Option.some.injEq, Prod.mk.injEq] at h
        have hlt := ih hs
        rw [← h.2]
        simp only [List.length_cons]
        omega

/-- The `path.replace(/\{([^}]+)\}/g, (_, param) => By + pascalCase(param))`
step: every brace group with non-empty content becomes `By` followed by the
PascalCased content. -/
def replaceParamsAux (cc : ChangeCase) : List Char → List Char
  | [] => []
  | c :: rest =>
    if c = '{' then
      match h : splitAtCloseBrace rest with
      | some (content, after) =>
        if content = [] then c :: replaceParamsAux cc rest
        else ('B' :: 'y' :: (cc.pascalCase ⟨content⟩).data) ++ replaceParamsAux cc after
      | none => c :: replaceParamsAux cc rest
    else c :: replaceParamsAux cc rest
termination_by l => l.length
decreasing_by
  · simp only [List.length_cons]
    omega
  · have := splitAtCloseBrace_len h
    simp only [List.length_cons]
    omega
  · simp only [List.length_cons]
    omega
  · simp only [List.length_cons]
    omega

/-- JavaScript `path.split("/")` (single-character separator). -/
def splitOnChar (sep : Char) : List Char → List (List Char)
  | [] => [[]]
  | c :: rest =>
    match splitOnChar sep rest with
    | r :: rs => if c = sep then [] :: r :: rs else (c :: r) :: rs
    | [] => [[c]]

/-- The shared path-to-identifier part of the three name generators: strip
the leading slashes and an `api/` marker, rewrite `{param}` groups, split
on `/`, PascalCase each non-empty segment and concatenate. -/
def pathPartOf (cc : ChangeCase) (path : String) : String :=
  let p2 := replaceParamsAux cc (stripApiLead (stripLeadSlashes path)).data
  String.join (((splitOnChar '/' p2).filter (fun seg => seg ≠ [])).map
    (fun seg => cc.pascalCase ⟨seg⟩))

/-! ### The canonical wire `Interface` (fields read by the functions under
verification; enums modelled from the spec since `./types` is not part of
the sources). -/

inductive RequestBodyType where
  | query | form | json | text | file | raw
deriving DecidableEq

inductive RequiredFlag where
  | rfalse | rtrue
deriving DecidableEq

inductive RequestFormItemType where
  | text | file
deriving DecidableEq

structure FormItem where
  name : String
  required : RequiredFlag
  type : RequestFormItemType
  desc : Option String

structure ReqParam where
  name : String
  required : RequiredFlag
  type : Option String
  desc : Option String
  schema : Option Js

structure Interface where
  method : Method
  path : String
  req_body_type : Option RequestBodyType
  req_body_is_json_schema : Bool
  req_body_form : List FormItem
  req_body_other : Option String
  req_query : List ReqParam
  req_params : List ReqParam

/-- Model of `getRequestFunctionName(interfaceInfo, changeCase)` (the
pipeline is spelled out inline, as in the source). -/
def getRequestFunctionName (cc : ChangeCase) (i : Interface) : String :=
  let methodPre := jsLower (methodStr i.method)
  let p2 := replaceParamsAux cc (stripApiLead (stripLeadSlashes i.path)).data
  let pathPart := String.join (((splitOnChar '/' p2).filter (fun seg => seg ≠ [])).map
    (fun seg => cc.pascalCase ⟨seg⟩))
  methodPre ++ pathPart ++ "Api"

/-- Model of `getRequestDataTypeName(interfaceInfo, changeCase)`. -/
def getRequestDataTypeName (cc : ChangeCase) (i : Interface) : String :=
  let methodPre := cc.pascalCase (jsLower (methodStr i.method))
  let p2 := replaceParamsAux cc (stripApiLead (stripLeadSlashes i.path)).data
  let pathPart := String.join (((splitOnChar '/' p2).filter (fun seg => seg ≠ [])).map
    (fun seg => cc.pascalCase ⟨seg⟩))
  methodPre ++ pathPart ++ "RequestType"

/-- Model of `getReponseDataTypeName(interfaceInfo, changeCase)` (source
spelling). -/
def getReponseDataTypeName (cc : ChangeCase) (i : Interface) : String :=
  let methodPre := cc.pascalCase (jsLower (methodStr i.method))
  let p2 := replaceParamsAux cc (stripApiLead (stripLeadSlashes i.path)).data
  let pathPart := String.join (((splitOnChar '/' p2).filter (fun seg => seg ≠ [])).map
    (fun seg => cc.pascalCase ⟨seg⟩))
  methodPre ++ pathPart ++ "ResponseType"

/-! ### A concrete PascalCase (modelled from the spec: the `change-case`
library splits on case boundaries and non-alphanumeric separators,
lowercases each word and capitalizes its first letter). -/

def isUpperA (c : Char) : Bool := 65 ≤ c.toNat && c.toNat ≤ 90
def isLowerA (c : Char) : Bool := 97 ≤ c.toNat && c.toNat ≤ 122
def isDigitA (c : Char) : Bool := 48 ≤ c.toNat && c.toNat ≤ 57
def isAlnumA (c : Char) : Bool := isUpperA c || isLowerA c || isDigitA c

def wordsAux : List Char → List Char → List (List Char)
  | cur, [] => if cur = [] then [] else [cur.reverse]
  | cur, c :: rest =>
    if !isAlnumA c then
      (if cur = [] then [] else [cur.reverse]) ++ wordsAux [] rest
    else
      match rest with
      | c2 :: rest2 =>
        if isUpperA c2 && (isLowerA c || isDigitA c) then
          (c :: cur).reverse :: wordsAux [] rest
        else if isUpperA c && isUpperA c2 &&
            (match rest2 with | c3 :: _ => isLowerA c3 | [] => false) then
          (c :: cur).reverse :: wordsAux [] rest
        else wordsAux (c :: cur) rest
      | [] => wordsAux (c :: cur) rest

def upperFirst : List Char → List Char
  | [] => []
  | c :: rest => Char.toUpper c :: rest

def modelPascalCase (s : String) : String :=
  String.join ((wordsAux [] s.data).map (fun w => ⟨upperFirst (w.map Char.toLower)⟩))

def modelChangeCase : ChangeCase :=
  ⟨modelPascalCase⟩

/-! ### `getRequestDataJsonSchema` (src/utils/apifox.ts, lines 551-652) -/

/-- A `PropDefinition` as built by the callers of
`propDefinitionsToJsonSchema`. -/
structure PropDefinition where
  name : String
  required : Bool
  type : String
  comment : Option String
  schema : Option Js

/-- One property entry of `propDefinitionsToJsonSchema`: either the item's
own schema spread together with the comment (and a `FileData` `tsType` when
its type is `"file"`), or a plain node from the `type` field. -/
def propDefEntry (prop : PropDefinition) : Js :=
  match prop.schema with
  | some sc =>
    match sc with
    | .mk ref ref2 ty its pr rq o1 o2 o3 nm ti _ idf tst df mi ma ap ia =>
      .mk ref ref2 ty its pr rq o1 o2 o3 nm ti prop.comment idf
        (if ty = some (Sum.inl "file") then some "FileData" else tst) df mi ma ap ia
  | none =>
    .mk false false (some (Sum.inl prop.type)) none none none none none none none none
      prop.comment none (if prop.type = "file" then some "FileData" else none)
      false false false none false

/-- Model of `propDefinitionsToJsonSchema(propDefinitions,
customTypeMapping)`. -/
def propDefinitionsToJsonSchema (defs : List PropDefinition) (m : CMap) : Js :=
  procJs m
    (.mk false false (some (Sum.inl "object")) none
      (some (Sum.inl (objFromPairs (defs.map (fun prop => (prop.name, propDefEntry prop))))))
      (some (Sum.inr ((defs.filter (fun p => p.required)).map (fun p => p.name))))
      none none none none none none none none false false false none false)

/-- Model of `isGetLikeMethod(method)`. -/
def isGetLikeMethod (method : Method) : Bool :=
  method = Method.GET || method = Method.OPTIONS || method = Method.HEAD

/-- Model of `isPostLikeMethod(method)`. -/
def isPostLikeMethod (method : Method) : Bool :=
  !isGetLikeMethod method

/-- External parsers used by the request-body branch: `JSON.parse` of a
JSON-Schema string, and `JSON5.parse` composed with the `to-json-schema`
inference (with the source's fixed options), both external collaborators. -/
structure ExternalParsers where
  parseJsonSchemaStr : String → Js
  inferFromJson5 : String → Js

/-- Model of `jsonSchemaStringToJsonSchema(str, customTypeMapping)`. -/
def jsonSchemaStringToJsonSchema (parse : String → Js) (str : String) (m : CMap) : Js :=
  procJs m (parse str)

/-- Model of `jsonToJsonSchema(json, customTypeMapping)`: run the external
inference, delete the root `description`, normalize. -/
def jsonToJsonSchemaM (infer : String → Js) (str : String) (m : CMap) : Js :=
  procJs m
    (match infer str with
     | .mk ref ref2 ty its pr rq o1 o2 o3 nm ti _ idf tst df mi ma ap ia =>
       .mk ref ref2 ty its pr rq o1 o2 o3 nm ti none idf tst df mi ma ap ia)

/-- The map-form entries of a `properties` field for the object spread
(`{...a.properties, ...b.properties}`; absent becomes `{}`). -/
def pmapOf : Option (List (String × Js) ⊕ List Js) → List (String × Js)
  | some (Sum.inl l) => l
  | _ => []

/-- The `required` entries kept by the `Array.isArray` guard. -/
def rlistOf : Option (Bool ⊕ List String) → List String
  | some (Sum.inr rs) => rs
  | _ => []

/-- The in-place merge of a query/params schema into the accumulated
request schema: `properties` object-spread, `required` concatenation. -/
def mergeSchemas (a q : Js) : Js :=
  match a with
  | .mk ref ref2 ty its pr rq o1 o2 o3 nm ti de idf tst df mi ma ap ia =>
    .mk ref ref2 ty its
      (some (Sum.inl (objFromPairs (pmapOf pr ++ pmapOf q.properties))))
      (some (Sum.inr (rlistOf rq ++ rlistOf q.required)))
      o1 o2 o3 nm ti de idf tst df mi ma ap ia

/-- Model of `getRequestDataJsonSchema(interfaceInfo, customTypeMapping)`. -/
def getRequestDataJsonSchema (ext : ExternalParsers) (i : Interface) (m : CMap) : Js :=
  let body : Option Js :=
    if isPostLikeMethod i.method then
      match i.req_body_type with
      | some RequestBodyType.form =>
        some (propDefinitionsToJsonSchema
          (i.req_body_form.map (fun item =>
            { name := item.name
              required := item.required = RequiredFlag.rtrue
              type := match item.type with
                | RequestFormItemType.file => "file"
                | _ => "string"
              comment := item.desc
              schema := none }))
          m)
      | some RequestBodyType.json =>
        match i.req_body_other with
        | some str =>
          if str = "" then none
          else some
            (if i.req_body_is_json_schema then
              jsonSchemaStringToJsonSchema ext.parseJsonSchemaStr str m
            else jsonToJsonSchemaM ext.inferFromJson5 str m)
        | none => none
      | _ => none
    else none
  let afterQuery : Option Js :=
    if i.req_query.isEmpty then body
    else
      let queryJsonSchema := propDefinitionsToJsonSchema
        (i.req_query.map (fun item =>
          { name := item.name
            required := item.required = RequiredFlag.rtrue
            type := match item.type with
              | some t => if t = "" then "string" else t
              | none => "string"
            comment := item.desc
            schema := item.schema }))
        m
      some (match body with
        | some js => mergeSchemas js queryJsonSchema
        | none => queryJsonSchema)
  let afterParams : Option Js :=
    if i.req_params.isEmpty then afterQuery
    else
      let paramsJsonSchema := propDefinitionsToJsonSchema
        (i.req_params.map (fun item =>
          { name := item.name
            required := true
            type := match item.type with
              | some t => if t = "" then "string" else t
              | none => "string"
            comment := item.desc
            schema := item.schema }))
        m
      some (match afterQuery with
        | some js => mergeSchemas js paramsJsonSchema
        | none => paramsJsonSchema)
  afterParams.getD Js.empty

/-! ### Helper lemmas for concrete evaluation and table lookups -/

theorem replaceParamsAux_nil (cc : ChangeCase) : replaceParamsAux cc [] = [] := by
  rw [replaceParamsAux.eq_def]

/-- Unfolding equation of `replaceParamsAux` on a cons cell. -/
theorem replaceParamsAux_cons (cc : ChangeCase) (c : Char) (rest : List Char) :
    replaceParamsAux cc (c :: rest) =
      if c = '{' then
        match splitAtCloseBrace rest with
        | some (content, after) =>
          if content = [] then c :: replaceParamsAux cc rest
          else ('B' :: 'y' :: (cc.pascalCase ⟨content⟩).data) ++ replaceParamsAux cc after
        | none => c :: replaceParamsAux cc rest
      else c :: replaceParamsAux cc rest := by
  rw [replaceParamsAux.eq_def]
  by_cases hc : c = '{'
  · subst hc
    simp only [if_pos]
    split
    · rename_i content after heq
      rw [heq]
    · rename_i heq
      rw [heq]
  · simp [hc]

/-- Fuel-indexed structural copy of `replaceParamsAux`, for kernel
evaluation on concrete paths. -/
def replaceParamsFuel (cc : ChangeCase) : Nat → List Char → List Char
  | 0, _ => []
  | _ + 1, [] => []
  | fuel + 1, c :: rest =>
    if c = '{' then
      match splitAtCloseBrace rest with
      | some (content, after) =>
        if content = [] then c :: replaceParamsFuel cc fuel rest
        else ('B' :: 'y' :: (cc.pascalCase ⟨content⟩).data) ++ replaceParamsFuel cc fuel after
      | none => c :: replaceParamsFuel cc fuel rest
    else c :: replaceParamsFuel cc fuel rest

theorem replaceParamsFuel_eq (cc : ChangeCase) : ∀ (n : Nat) (l : List Char),
    l.length ≤ n → replaceParamsFuel cc n l = replaceParamsAux cc l := by
  intro n
  induction n with
  | zero =>
    intro l h
    rcases l with _ | ⟨c, rest⟩
    · simp [replaceParamsFuel, replaceParamsAux_nil]
    · simp at h
  | succ n ih =>
    intro l h
    rcases l with _ | ⟨c, rest⟩
    · simp [replaceParamsFuel, replaceParamsAux_nil]
    · rw [replaceParamsFuel, replaceParamsAux_cons]
      simp only [List.length_cons] at h
      by_cases hc : c = '{'
      · rcases hs : splitAtCloseBrace rest with _ | ⟨content, after⟩
        · simp [hc, hs, ih rest (by omega)]
        · by_cases hco : content = []
          · simp [hc, hs, hco, ih rest (by omega)]
          · have hlen := splitAtCloseBrace_len hs
            simp [hc, hs, hco, ih after (by omega)]
      · simp [hc, ih rest (by omega)]

theorem jsGet_jsSet {α : Type} : ∀ (l : List (String × α)) (k k2 : String) (v : α),
    jsGet (jsSet l k v) k2 = if k = k2 then some v else jsGet l k2 := by
  intro l
  induction l with
  | nil =>
    intro k k2 v
    by_cases h : k = k2 <;> simp [jsSet, jsGet, h]
  | cons p rest ih =>
    intro k k2 v
    rcases p with ⟨k0, v0⟩
    by_cases h0 : k0 = k
    · subst h0
      by_cases h : k0 = k2 <;> simp [jsSet, jsGet, h]
    · rw [jsSet, if_neg h0]
      by_cases h1 : k0 = k2
      · subst h1
        have hne : ¬ (k = k0) := fun hh => h0 hh.symm
        simp [jsGet, hne]
      · simp [jsGet, h1, ih]

theorem jsGet_append {α : Type} : ∀ (l1 l2 : List (String × α)) (k : String),
    jsGet (l1 ++ l2) k = match jsGet l1 k with
      | some v => some v
      | none => jsGet l2 k := by
  intro l1
  induction l1 with
  | nil => intro l2 k; simp [jsGet]
  | cons p rest ih =>
    intro l2 k
    rcases p with ⟨k0, v0⟩
    by_cases h : k0 = k <;> simp [jsGet, h, ih]

theorem foldl_jsSet_get {α : Type} : ∀ (ps acc : List (String × α)) (k : String),
    jsGet (ps.foldl (fun st p => jsSet st p.1 p.2) acc) k =
      match jsGet ps.reverse k with
      | some v => some v
      | none => jsGet acc k := by
  intro ps
  induction ps with
  | nil => intro acc k; simp [jsGet]
  | cons p rest ih =>
    intro acc k
    rcases p with ⟨k0, v0⟩
    rw [List.foldl_cons, ih]
    rw [List.reverse_cons, jsGet_append]
    rcases jsGet rest.reverse k with _ | v
    · simp [jsGet_jsSet, jsGet]
      by_cases h : k0 = k <;> simp [h]
    · simp

/-- Lookup in a spread-built object is lookup in the reversed write list
(the last write to a key wins, insertion order notwithstanding). -/
theorem jsGet_objFromPairs {α : Type} (ps : List (String × α)) (k : String) :
    jsGet (objFromPairs ps) k = jsGet ps.reverse k := by
  rw [objFromPairs, foldl_jsSet_get]
  rcases jsGet ps.reverse k with _ | v <;> simp [jsGet]

theorem jsGet_of_mem_nodup {α : Type} : ∀ {l : List (String × α)} {k : String} {v : α},
    (k, v) ∈ l → (l.map Prod.fst).Nodup → jsGet l k = some v := by
  intro l
  induction l with
  | nil => intro k v h; simp at h
  | cons p rest ih =>
    intro k v hmem hnd
    rcases p with ⟨k0, v0⟩
    rcases List.mem_cons.1 hmem with h | h
    · rw [Prod.mk.injEq] at h
      simp [jsGet, h.1, h.2]
    · rw [List.map_cons, List.nodup_cons] at hnd
      have hk0 : k0 ≠ k := by
        intro he
        subst he
        exact hnd.1 (List.mem_map.2 ⟨(k0, v), h, rfl⟩)
      simp only [jsGet, if_neg hk0]
      exact ih h hnd.2

/-- Walking down the wrapping chain finds the wrapped sub-schema. -/
theorem walkPath_wrapDataKey : ∀ (ks : List String) (sub : Js),
    walkPath (wrapDataKey sub ks) ks = some sub
  | [], sub => rfl
  | k :: rest, sub => by
    rw [wrapDataKey, walkPath]
    simp [propLookup, Js.properties, jsGet]
    exact walkPath_wrapDataKey rest sub

/-! ### The claims -/

/-- Claim C1 (corrected): the JavaScript `categoryIds.sort()` compares the
ids as strings, so `[2, 10]` resolves to `[10, 2]`, which is not
numerically ascending as the spec states. -/
theorem claim1_counterexample :
    resolveCategoryIds (Sum.inr [2, 10]) [⟨2, "a"⟩, ⟨10, "b"⟩] = [10, 2] ∧
    ¬ (resolveCategoryIds (Sum.inr [2, 10]) [⟨2, "a"⟩, ⟨10, "b"⟩]).Sorted (· ≤ ·) := by
  have h : jsUniq [2, 10] = [2, 10] := by simp [jsUniq]
  constructor
  · simp only [resolveCategoryIds, castArr]
    norm_num [jsAbs, h]
    decide
  · simp only [resolveCategoryIds, castArr]
    norm_num [jsAbs, h]
    decide

/-- Claim C1 (amended): the resolved category-id list holds exactly the
configured ids (with a configured `0` expanded to all of the project's
category ids), minus every id whose absolute value matches a negative entry
of that expanded set (the negative entries themselves do not survive),
restricted to ids the project knows; it is duplicate-free and sorted in the
JavaScript default sort order, which compares the decimal string
representations. -/
theorem claim1_categoryResolution (cfgId : OneOrMore Int) (cats : List Category) :
    (resolveCategoryIds cfgId cats).Nodup ∧
    List.Sorted jsSortLe (resolveCategoryIds cfgId cats) ∧
    ∀ x : Int, x ∈ resolveCategoryIds cfgId cats ↔
      ((x ∈ castArr cfgId ∨ ((0 : Int) ∈ castArr cfgId ∧ ∃ c ∈ cats, c._id = x)) ∧
        (∀ y : Int, (y ∈ castArr cfgId ∨ ((0 : Int) ∈ castArr cfgId ∧ ∃ c ∈ cats, c._id = y)) →
          y < 0 → jsAbs x ≠ jsAbs y) ∧
        ∃ c ∈ cats, c._id = x) := by
  have hres : resolveCategoryIds cfgId cats =
      List.insertionSort jsSortLe
        (((jsUniq (if (castArr cfgId).contains 0 then castArr cfgId ++ cats.map (fun c => c._id)
              else castArr cfgId)).filter
            (fun i => !((((jsUniq (if (castArr cfgId).contains 0 then
                castArr cfgId ++ cats.map (fun c => c._id) else castArr cfgId)).filter
                  (fun i => i < 0)).map jsAbs).contains (jsAbs i)))).filter
          (fun i => cats.any (fun c => c._id = i))) := rfl
  have hcon : ∀ (l : List Int) (a : Int), l.contains a = true ↔ a ∈ l := fun l a => List.elem_iff
  have hmem1 : ∀ x : Int,
      (x ∈ (if (castArr cfgId).contains 0 then castArr cfgId ++ cats.map (fun c => c._id)
          else castArr cfgId)) ↔
        (x ∈ castArr cfgId ∨ ((0 : Int) ∈ castArr cfgId ∧ ∃ c ∈ cats, c._id = x)) := by
    intro x
    by_cases h0 : (0 : Int) ∈ castArr cfgId
    · rw [if_pos ((hcon _ _).mpr h0)]
      simp [h0]
    · rw [if_neg (fun hh => h0 ((hcon _ _).mp hh))]
      simp [h0]
  refine ⟨?_, ?_, ?_⟩
  · rw [hres]
    exact ((List.perm_insertionSort _ _).nodup_iff).2 (((jsUniq_nodup _).filter _).filter _)
  · rw [hres]
    exact List.sorted_insertionSort _ _
  · intro x
    rw [hres, (List.perm_insertionSort jsSortLe _).mem_iff, List.mem_filter, List.mem_filter,
      jsUniq_mem, hmem1 x]
    constructor
    · rintro ⟨⟨hin, hexcl⟩, hany⟩
      refine ⟨hin, ?_, by simpa using hany⟩
      intro y hy hylt heq
      have hmemex : jsAbs x ∈ ((jsUniq (if (castArr cfgId).contains 0 then
          castArr cfgId ++ cats.map (fun c => c._id) else castArr cfgId)).filter
            (fun i => i < 0)).map jsAbs :=
        List.mem_map.2 ⟨y, List.mem_filter.2 ⟨(jsUniq_mem _ y).2 ((hmem1 y).2 hy),
          by simpa using hylt⟩, heq.symm⟩
      have hb := (hcon _ _).mpr hmemex
      rw [hb] at hexcl
      simp at hexcl
    · rintro ⟨hin, hnotex, hex⟩
      refine ⟨⟨hin, ?_⟩, by simpa using hex⟩
      have hnm : jsAbs x ∉ ((jsUniq (if (castArr cfgId).contains 0 then
          castArr cfgId ++ cats.map (fun c => c._id) else castArr cfgId)).filter
            (fun i => i < 0)).map jsAbs := by
        intro hmemex
        rcases List.mem_map.1 hmemex with ⟨y, hyf, hyabs⟩
        rcases List.mem_filter.1 hyf with ⟨hymem, hylt⟩
        exact hnotex y ((hmem1 y).1 ((jsUniq_mem _ y).1 hymem)) (by simpa using hylt) hyabs.symm
      have hb : (((jsUniq (if (castArr cfgId).contains 0 then
          castArr cfgId ++ cats.map (fun c => c._id) else castArr cfgId)).filter
            (fun i => i < 0)).map jsAbs).contains (jsAbs x) = false := by
        rcases hbb : (((jsUniq (if (castArr cfgId).contains 0 then
            castArr cfgId ++ cats.map (fun c => c._id) else castArr cfgId)).filter
              (fun i => i < 0)).map jsAbs).contains (jsAbs x) with _ | _
        · exact hbb
        · exact absurd ((hcon _ _).mp hbb) hnm
      simp only [Bool.not_eq_true']
      exact hb

/-- Claim C2: `sortByWeights` returns a permutation of its input sorted by
the comparator `jsCompare`, which is the lexicographic integer comparison
of the two weight vectors zero-padded to the common length (`wcmp`); in
particular an item with weights `[0,0,0,1]` is placed before one with
`[0,0,0,2]` regardless of the input order. -/
theorem claim2_sortByWeights :
    (∀ (α : Type) (list : List (Weighted α)),
      (sortByWeights list).Perm list ∧
      List.Sorted (fun a b => jsCompare a.weights b.weights ≤ 0) (sortByWeights list)) ∧
    (∀ (a b : List Int), jsCompare a b = wcmp a b) ∧
    (∀ (α : Type) (p q : α),
      sortByWeights [⟨[0, 0, 0, 2], p⟩, ⟨[0, 0, 0, 1], q⟩] =
        [⟨[0, 0, 0, 1], q⟩, ⟨[0, 0, 0, 2], p⟩]) := by
  refine ⟨?_, jsCompare_eq_wcmp, ?_⟩
  · intro α list
    constructor
    · simp only [sortByWeights]
      exact List.perm_insertionSort _ _
    · simp only [sortByWeights]
      exact List.sorted_insertionSort _ _
  · intro α p q
    have h : ¬ (jsCompare [0, 0, 0, 2] [0, 0, 0, 1] ≤ 0) := by decide
    simp [sortByWeights, List.insertionSort, List.orderedInsert, h]

def claim3bad : Js :=
  .mk false false (some (Sum.inl "Array"))
    (some (Sum.inr [Js.empty, Js.empty]))
    none none none none none none none none none none false false false none false

/-- Claim C3 (corrected): `processJsonSchema` is not idempotent on every
input: a node whose `type` is `"Array"` (normalizing to `"array"`) with a
non-empty tuple `items` keeps its tuple on the first pass (the collapse
guard tests `type === "array"` before the type is normalized) and collapses
it on the second. -/
theorem claim3_counterexample :
    procJs [] (procJs [] claim3bad) ≠ procJs [] claim3bad := by
  have e1 : normSingle [] "Array" = "array" := rfl
  have e2 : normSingle [] "array" = "array" := rfl
  simp [claim3bad, procJs_eq, typeStep, procItems, procProps, procReq, procList, Js.empty, e1, e2]

/-- Claim C3 (amended): `processJsonSchema` is idempotent for every mapping
whose effective table is stable (`TableOK`) and every tree in which a
non-empty tuple `items` sits only under a `type` that is already `"array"`
or does not normalize to `"array"`, and map-form `properties` have distinct
keys (`schemaOK`). -/
theorem claim3_idempotent (m : CMap) (s : Js) (hT : TableOK m) (hs : schemaOK m s) :
    procJs m (procJs m s) = procJs m s :=
  procJs_idem m s hT hs

theorem claim3_witness :
    TableOK [] ∧ schemaOK [] Js.empty ∧
    procJs [] (procJs [] Js.empty) = procJs [] Js.empty := by
  have hT : TableOK [] := by
    unfold TableOK
    decide
  have hs : schemaOK [] Js.empty := by
    rw [Js.empty, schemaOK.eq_def]
    simp
  exact ⟨hT, hs, claim3_idempotent [] Js.empty hT hs⟩

/-- Claim C4 (counterexample): a node whose `type` is the empty string is
skipped by the falsy `if (jsonSchema.type)` guard, even when the caller
mapping has a (case-insensitively matching) entry for the empty string, so
the claimed "for every schema node with a type field" table mapping with
override precedence does not hold for it. -/
theorem claim4_counterexample :
    typeStep [("", "integer")] (some (Sum.inl "")) = some (Sum.inl "") ∧
    normSingle [("", "integer")] "" = "integer" ∧
    (procJs [("", "integer")]
        (.mk false false (some (Sum.inl "")) none none none none none none none none none
          none none false false false none false)).type = some (Sum.inl "") ∧
    ("" : String) ≠ "integer" := by
  refine ⟨rfl, by decide, ?_, by decide⟩
  simp [procJs_eq, typeStep, Js.type, procItems, procProps, procReq, procList]

/-- Claim C4 (amended): for every node whose `type` is a non-empty string
(and for every name of a `type` array) the name is lowercased and mapped
through the merged table: the built-ins map byte/short/int/long to integer,
float/double/bigdecimal to number, char to string and void to null;
`"Int"` maps to `"integer"`; and a caller entry whose key matches the type
case-insensitively takes precedence (its non-empty target is used). -/
theorem claim4_typeTable :
    (∀ (m : CMap) (t : String), t ≠ "" →
        typeStep m (some (Sum.inl t)) = some (Sum.inl (normSingle m t))) ∧
    (∀ (m : CMap) (ts : List String),
        typeStep m (some (Sum.inr ts)) = some (Sum.inr (ts.map (normSingle m)))) ∧
    (normSingle [] "byte" = "integer" ∧ normSingle [] "short" = "integer" ∧
      normSingle [] "int" = "integer" ∧ normSingle [] "long" = "integer" ∧
      normSingle [] "float" = "number" ∧ normSingle [] "double" = "number" ∧
      normSingle [] "bigdecimal" = "number" ∧ normSingle [] "char" = "string" ∧
      normSingle [] "void" = "null") ∧
    typeStep [] (some (Sum.inl "Int")) = some (Sum.inl "integer") ∧
    (∀ (m : CMap) (k v t : String),
        (k, v) ∈ m → jsLower k = jsLower t → v ≠ "" →
        (m.map (fun p => jsLower p.1)).Nodup →
        normSingle m t = v) := by
  refine ⟨?_, fun m ts => rfl, by decide, by decide, ?_⟩
  · intro m t ht
    simp [typeStep, ht]
  · intro m k v t hmem hkt hv hnd
    have hcaller : jsGet ((m.map (fun p => (jsLower p.1, p.2))).reverse) (jsLower t) = some v := by
      apply jsGet_of_mem_nodup
      · rw [List.mem_reverse]
        have hmm : (jsLower k, v) ∈ m.map (fun p => (jsLower p.1, p.2)) :=
          List.mem_map.2 ⟨(k, v), hmem, rfl⟩
        rw [hkt] at hmm
        exact hmm
      · rw [List.map_reverse, List.nodup_reverse, List.map_map]
        have he : (Prod.fst ∘ fun p : String × String => (jsLower p.1, p.2)) =
            (fun p : String × String => jsLower p.1) := rfl
        rw [he]
        exact hnd
    have h1 : jsGet (typeMappingTable m) (jsLower t) = some v := by
      rw [typeMappingTable, jsGet_objFromPairs, List.reverse_append, jsGet_append, hcaller]
    rw [normSingle, h1]
    simp [hv]

/-- Claim C5: both name generators follow the shared path algorithm (strip
leading slashes and a leading `api/`, rewrite each non-empty `{param}` to
`By` + PascalCase(param), PascalCase the non-empty `/`-segments and
concatenate), prefixed by the lowercased method for the function name (with
suffix `Api`) and by the PascalCased lowercased method for the request-type
name (with suffix `RequestType`); on the spec's two examples with the
modelled PascalCase the names come out as stated. -/
theorem claim5_names :
    (∀ (cc : ChangeCase) (i : Interface),
        getRequestFunctionName cc i =
          jsLower (methodStr i.method) ++ pathPartOf cc i.path ++ "Api" ∧
        getRequestDataTypeName cc i =
          cc.pascalCase (jsLower (methodStr i.method)) ++ pathPartOf cc i.path ++ "RequestType") ∧
    getRequestFunctionName modelChangeCase
        { method := Method.GET, path := "/api/customer/v1/region/listDwg",
          req_body_type := none, req_body_is_json_schema := false, req_body_form := [],
          req_body_other := none, req_query := [], req_params := [] } =
      "getCustomerV1RegionListDwgApi" ∧
    getRequestFunctionName modelChangeCase
        { method := Method.GET, path := "/api/system/v1/menu/query/\x7bmenuId\x7d",
          req_body_type := none, req_body_is_json_schema := false, req_body_form := [],
          req_body_other := none, req_query := [], req_params := [] } =
      "getSystemV1MenuQueryByMenuIdApi" := by
  refine ⟨fun cc i => ⟨rfl, rfl⟩, ?_, ?_⟩
  · simp only [getRequestFunctionName]
    rw [← replaceParamsFuel_eq modelChangeCase 64 _ (by decide)]
    decide
  · simp only [getRequestFunctionName]
    rw [← replaceParamsFuel_eq modelChangeCase 64 _ (by decide)]
    decide

/-- Claim C6 (counterexample): on a schema carrying the `__is_any__`
sentinel, `jsonSchemaToType` deletes the marker from the caller's object
(the `delete jsonSchema.__is_any__` runs before the deep clone), so the
caller's schema is not deep-equal to its value before the call. -/
theorem claim6_counterexample :
    (jsonSchemaToType (fun _ _ => "")
        (.mk false false none none none none none none none none none none none none
          false false false none true) "T").2
      ≠ (.mk false false none none none none none none none none none none none none
          false false false none true : Js) := by
  intro h
  simp [jsonSchemaToType, jsIsEmpty, clearAny, Js.isAny] at h

/-- Claim C6 (amended): `jsonSchemaToType` leaves the caller's schema
unchanged whenever it does not carry the `__is_any__` sentinel (the
empty-schema branch returns before touching it, and the synthesis branch
works on a deep clone). -/
theorem claim6_noMutation (compile : Js → String → String) (s : Js) (T : String)
    (h : s.isAny = false) : (jsonSchemaToType compile s T).2 = s := by
  rw [jsonSchemaToType]
  by_cases he : jsIsEmpty s
  · simp [he]
  · simp [he, h]

theorem claim6_witness :
    Js.empty.isAny = false ∧
    (jsonSchemaToType (fun _ _ => "") Js.empty "T").2 = Js.empty :=
  ⟨rfl, claim6_noMutation (fun _ _ => "") Js.empty "T" rfl⟩

/-- Claim C7: `reachJsonSchema` is a total function that returns the node
found by following the whole property path, and returns the original
schema unchanged whenever some segment of the path does not resolve. -/
theorem claim7_reachTotal (s : Js) (path : OneOrMore String) :
    reachJsonSchema s path = (walkPath s (castArr path)).getD s ∧
    (walkPath s (castArr path) = none → reachJsonSchema s path = s) := by
  constructor
  · rw [reachJsonSchema, reachAux_walk]
  · intro hn
    rw [reachJsonSchema, reachAux_walk, hn]
    rfl

/-- Claim C8: nesting a sub-schema under the `properties` chain named by a
data-key path and unwrapping with `reachJsonSchema` returns exactly the
original sub-schema. -/
theorem claim8_roundTrip (sub : Js) (path : OneOrMore String) :
    reachJsonSchema (wrapDataKey sub (castArr path)) path = sub := by
  rw [reachJsonSchema, reachAux_walk, walkPath_wrapDataKey]
  rfl

/-- Claim C9: `jsonSchemaToType` returns exactly
`export interface T \x7b\x7d` for an empty schema and exactly
`export type T = any` for a schema carrying the `__is_any__` sentinel. -/
theorem claim9_emptyAndAny (compile : Js → String → String) (T : String) (s : Js) :
    (jsIsEmpty s = true →
      (jsonSchemaToType compile s T).1 = "export interface " ++ T ++ " \x7b\x7d") ∧
    (s.isAny = true →
      (jsonSchemaToType compile s T).1 = "export type " ++ T ++ " = any") := by
  constructor
  · intro h
    rw [jsonSchemaToType]
    simp [h]
  · intro h
    have he : jsIsEmpty s = false := by
      rcases s with ⟨r, r2, ty, its, pr, rq, o1, o2, o3, nm, ti, de, idf, tst, df, mi, ma, ap, ia⟩
      simp [Js.isAny] at h
      simp [jsIsEmpty, h]
    rw [jsonSchemaToType]
    simp [he, h]

/-- Claim C10: for a GET-like method (GET, OPTIONS, HEAD) the request
schema is built solely from the query- and path-parameter lists — the
request-body descriptors and the external body parsers never influence the
result — and it is the empty schema when both lists are empty. -/
theorem claim10_getLikeIgnoresBody (ext ext2 : ExternalParsers) (i i2 : Interface) (m : CMap)
    (hm : isGetLikeMethod i.method = true) (hme : i2.method = i.method)
    (hq : i2.req_query = i.req_query) (hp : i2.req_params = i.req_params) :
    getRequestDataJsonSchema ext i m = getRequestDataJsonSchema ext2 i2 m ∧
    (i.req_query = [] → i.req_params = [] → getRequestDataJsonSchema ext i m = Js.empty) := by
  have hpost : isPostLikeMethod i.method = false := by
    rw [isPostLikeMethod, hm]
    rfl
  have hpost2 : isPostLikeMethod i2.method = false := by
    rw [hme]
    exact hpost
  constructor
  · simp only [getRequestDataJsonSchema, hpost, hpost2, hq, hp]
    simp
  · intro h1 h2
    simp only [getRequestDataJsonSchema, hpost, h1, h2]
    simp [Js.empty]

def c10ext : ExternalParsers := ⟨fun _ => Js.empty, fun _ => Js.empty⟩

def c10ext2 : ExternalParsers :=
  ⟨fun _ => .mk true true none none none none none none none none none none none none
      false false false none true,
    fun _ => Js.empty⟩

def c10i1 : Interface :=
  { method := Method.GET, path := "/p", req_body_type := some RequestBodyType.json,
    req_body_is_json_schema := true, req_body_form := [], req_body_other := some "\x7b\x7d",
    req_query := [], req_params := [] }

def c10i2 : Interface :=
  { method := Method.GET, path := "/p", req_body_type := some RequestBodyType.form,
    req_body_is_json_schema := false,
    req_body_form := [⟨"f", RequiredFlag.rtrue, RequestFormItemType.file, none⟩],
    req_body_other := some "1", req_query := [], req_params := [] }

theorem claim10_witness :
    isGetLikeMethod c10i1.method = true ∧ c10i2.method = c10i1.method ∧
    c10i2.req_query = c10i1.req_query ∧ c10i2.req_params = c10i1.req_params ∧
    getRequestDataJsonSchema c10ext c10i1 [] = getRequestDataJsonSchema c10ext2 c10i2 [] ∧
    getRequestDataJsonSchema c10ext c10i1 [] = Js.empty :=
  ⟨rfl, rfl, rfl, rfl,
    (claim10_getLikeIgnoresBody c10ext c10ext2 c10i1 c10i2 [] rfl rfl rfl rfl).1,
    (claim10_getLikeIgnoresBody c10ext c10ext2 c10i1 c10i2 [] rfl rfl rfl rfl).2 rfl rfl⟩

end Cis
